import Mathlib

/-!
Shallow embedding of EasyIO.rs (`src/input_reader.rs` and
`src/output_writer.rs`).

Bytes are modelled as `Nat` (in practice values are below 256, but
nothing below depends on that bound).  The underlying `Read` source is
modelled as a list of chunks: each call to `read` delivers the next
chunk, truncated to the buffer capacity with the remainder pushed back
onto the source.  A source is well formed (`InputReader.WF`) when every
pending chunk is nonempty and the buffer capacity is positive; a read
returning 0 bytes is treated as end of input by the Rust code, exactly
as here.  Panics (`assert!`, failed `unwrap`, `peek` past the end) are
modelled with `Option` / `Except`.  Every loop of the Rust code consumes
at least one input byte per iteration, so each loop is embedded with a
fuel parameter instantiated with (number of remaining bytes + 1), which
is provably enough for the fuel never to run out.  `u64` arithmetic is
`Nat` arithmetic reduced modulo `2 ^ 64` (release-mode wrapping), and
the `u64 as i64` cast reinterprets modulo `2 ^ 64`.
-/

namespace EasyIO

/-- ASCII graphic bytes, `0x21 ..= 0x7E`, as in `char::is_ascii_graphic`. -/
def isAsciiGraphic (c : Nat) : Bool := 33 ≤ c && c ≤ 126

/-- ASCII digit bytes `'0' ..= '9'`, as in `char::is_ascii_digit`. -/
def isAsciiDigit (c : Nat) : Bool := 48 ≤ c && c ≤ 57

/-- State of `InputReader<R>`: `fill` is the valid prefix
`buf[0 .. bytes_read]` of the internal buffer (so `bytes_read` is
`fill.length`), `cap` is `buf.len()`, and `chunks` models the pending
byte source `reader`.  The scratch `str_buf` is not part of the state:
it is cleared at the start of every extraction and is observable only
through the returned token, which the embedding returns directly. -/
structure InputReader where
  chunks : List (List Nat)
  fill : List Nat
  current_index : Nat
  cap : Nat
  egearly_consume_whitespace : Bool
deriving Repr, DecidableEq

namespace InputReader

/-- Bytes not yet consumed: the unread part of the buffer followed by
everything still pending in the source. -/
def remInput (s : InputReader) : List Nat :=
  s.fill.drop s.current_index ++ s.chunks.flatten

/-- Well-formed source: every pending chunk is nonempty (the source
never signals a spurious end of input) and the buffer has room. -/
def WF (s : InputReader) : Prop :=
  (∀ c ∈ s.chunks, c ≠ []) ∧ 0 < s.cap

instance (s : InputReader) : Decidable (WF s) := by
  unfold WF; infer_instance

/-- Effect of `self.reader.read(&mut self.buf[..])` as performed inside
`has_more` when `current_index >= bytes_read`: the next chunk is
delivered (truncated to the buffer capacity, remainder pushed back) and
the cursor is reset to 0. -/
def refill (s : InputReader) : InputReader :=
  if s.current_index < s.fill.length then s
  else
    match s.chunks with
    | [] => { s with fill := [], current_index := 0 }
    | c :: rest =>
      { s with
        fill := c.take s.cap
        current_index := 0
        chunks := if (c.drop s.cap).isEmpty then rest else c.drop s.cap :: rest }

/-- `has_more`: refill if the buffer is exhausted, then report whether
any byte was obtained (`bytes_read > 0`). -/
def has_more (s : InputReader) : Bool × InputReader :=
  let s' := refill s
  (decide (0 < s'.fill.length), s')

/-- `peek`: `assert_has_more` then return `buf[current_index]`; `none`
models the `InputReader: Reached end of input!` panic. -/
def peek (s : InputReader) : Option (Nat × InputReader) :=
  let p := has_more s
  if p.1 then some (p.2.fill.getD p.2.current_index 0, p.2) else none

/-- Non-failing `opt_peek`. -/
def opt_peek (s : InputReader) : Option Nat × InputReader :=
  let p := has_more s
  (if p.1 then some (p.2.fill.getD p.2.current_index 0) else none, p.2)

/-- `consume`: advance the cursor without any bounds check. -/
def consume (s : InputReader) : InputReader :=
  { s with current_index := s.current_index + 1 }

/-- Loop body of `consume_until`: `while !test(self.peek()) { self.consume() }`. -/
def consume_until_go (test : Nat → Bool) : Nat → InputReader → Option InputReader
  | 0, _ => none
  | fuel + 1, s =>
    match peek s with
    | none => none
    | some (c, s') => if test c then some s' else consume_until_go test fuel (consume s')

/-- `consume_until`: fails (panics in `peek`) at end of input. -/
def consume_until (test : Nat → Bool) (s : InputReader) : Option InputReader :=
  consume_until_go test (s.remInput.length + 1) s

/-- Loop body of `consume_until_or_end`. -/
def consume_until_or_end_go (test : Nat → Bool) : Nat → InputReader → InputReader
  | 0, s => s
  | fuel + 1, s =>
    match opt_peek s with
    | (none, s') => s'
    | (some c, s') => if test c then s' else consume_until_or_end_go test fuel (consume s')

/-- `consume_until_or_end`: like `consume_until` but stops cleanly at
end of input. -/
def consume_until_or_end (test : Nat → Bool) (s : InputReader) : InputReader :=
  consume_until_or_end_go test (s.remInput.length + 1) s

/-- Helper for the trailing-whitespace consumption
`if self.egearly_consume_whitespace { self.consume_until_or_end(|c| c.is_ascii_graphic()) }`
performed after producing a token. -/
def eager_skip (s : InputReader) : InputReader :=
  if s.egearly_consume_whitespace then consume_until_or_end isAsciiGraphic s else s

/-- Helper for the leading skip
`if !self.egearly_consume_whitespace { self.consume_until(|c| c.is_ascii_graphic()) }`
performed before extracting a token in lazy mode. -/
def lazy_skip_to_graphic (s : InputReader) : Option InputReader :=
  if s.egearly_consume_whitespace then some s else consume_until isAsciiGraphic s

/-- Word-accumulation loop of `next_word`:
`while peek().is_ascii_graphic() { push; consume; if !has_more { break } }`. -/
def next_word_go : Nat → List Nat → InputReader → Option (List Nat × InputReader)
  | 0, _, _ => none
  | fuel + 1, acc, s =>
    match peek s with
    | none => none
    | some (c, s') =>
      if isAsciiGraphic c then
        let p := has_more (consume s')
        if p.1 then next_word_go fuel (acc ++ [c]) p.2
        else some (acc ++ [c], p.2)
      else some (acc, s')

/-- `next_word`. -/
def next_word (s : InputReader) : Option (List Nat × InputReader) :=
  match lazy_skip_to_graphic s with
  | none => none
  | some s1 =>
    match next_word_go (s1.remInput.length + 1) [] s1 with
    | none => none
    | some (w, s2) => some (w, eager_skip s2)

/-- Line-accumulation loop of `next_line_no_skip`:
`loop { c = peek(); consume(); match c { newline => break, o => push o }; if !has_more { break } }`. -/
def next_line_go : Nat → List Nat → InputReader → Option (List Nat × InputReader)
  | 0, _, _ => none
  | fuel + 1, acc, s =>
    match peek s with
    | none => none
    | some (c, s') =>
      let s2 := consume s'
      if c = 10 then some (acc, s2)
      else
        let p := has_more s2
        if p.1 then next_line_go fuel (acc ++ [c]) p.2
        else some (acc ++ [c], p.2)

/-- `next_line_no_skip`. -/
def next_line_no_skip (s : InputReader) : Option (List Nat × InputReader) :=
  next_line_go (s.remInput.length + 1) [] s

/-- `next_line`: `next_line_no_skip` followed by the eager-mode
trailing-whitespace skip. -/
def next_line (s : InputReader) : Option (List Nat × InputReader) :=
  match next_line_no_skip s with
  | none => none
  | some (l, s1) => some (l, eager_skip s1)

/-- Modulus of `u64` arithmetic. -/
def U64_MOD : Nat := 2 ^ 64

/-- Digit-accumulation loop of `next_u64`:
`while peek().is_ascii_digit() { num = num*10 + digit; consume; if !has_more { break } }`,
with release-mode wrapping arithmetic. -/
def next_u64_go : Nat → Nat → InputReader → Option (Nat × InputReader)
  | 0, _, _ => none
  | fuel + 1, num, s =>
    match peek s with
    | none => none
    | some (c, s') =>
      if isAsciiDigit c then
        let num' := (num * 10 + (c - 48)) % U64_MOD
        let p := has_more (consume s')
        if p.1 then next_u64_go fuel num' p.2
        else some (num', p.2)
      else some (num, s')

/-- `next_u64`. -/
def next_u64 (s : InputReader) : Option (Nat × InputReader) :=
  match consume_until isAsciiDigit s with
  | none => none
  | some s1 =>
    match next_u64_go (s1.remInput.length + 1) 0 s1 with
    | none => none
    | some (n, s2) => some (n, eager_skip s2)

/-- Loop of `consume_until_signed_num`; each iteration consumes at least
the `-` byte, so the remaining-bytes fuel suffices. -/
def consume_until_signed_num_go : Nat → InputReader → Option (Int × InputReader)
  | 0, _ => none
  | fuel + 1, s =>
    match consume_until (fun c => isAsciiDigit c || c == 45) s with
    | none => none
    | some s1 =>
      match peek s1 with
      | none => none
      | some (c, s2) =>
        if c ≠ 45 then some (1, s2)
        else
          match peek (consume s2) with
          | none => none
          | some (d, s4) =>
            if isAsciiDigit d then some (-1, s4)
            else consume_until_signed_num_go fuel s4

/-- `consume_until_signed_num`. -/
def consume_until_signed_num (s : InputReader) : Option (Int × InputReader) :=
  consume_until_signed_num_go (s.remInput.length + 1) s

/-- The Rust `u64 as i64` cast (two's complement reinterpretation). -/
def u64_as_i64 (n : Nat) : Int := if n < 2 ^ 63 then (n : Int) else (n : Int) - 2 ^ 64

/-- Wrap an integer into the `i64` range (release-mode `i64` overflow). -/
def i64_wrap (x : Int) : Int := (x + 2 ^ 63) % 2 ^ 64 - 2 ^ 63

/-- `next_i64`: `self.next_u64() as i64 * sign`. -/
def next_i64 (s : InputReader) : Option (Int × InputReader) :=
  match consume_until_signed_num s with
  | none => none
  | some (sign, s1) =>
    match next_u64 s1 with
    | none => none
    | some (n, s2) => some (i64_wrap (u64_as_i64 n * sign), s2)

/-- `next_char`. -/
def next_char (s : InputReader) : Option (Nat × InputReader) :=
  match lazy_skip_to_graphic s with
  | none => none
  | some s1 =>
    match peek s1 with
    | none => none
    | some (c, s2) => some (c, eager_skip (consume s2))

/-- `from_reader`: fresh reader with a 65536-byte buffer; in eager mode
leading whitespace is consumed immediately. -/
def from_reader (chunks : List (List Nat)) (egearly : Bool) : InputReader :=
  let ir : InputReader :=
    { chunks := chunks, fill := [], current_index := 0, cap := 2 ^ 16,
      egearly_consume_whitespace := egearly }
  if egearly then consume_until_or_end isAsciiGraphic ir else ir

/-- `set_buf_size`: `assert!(buf_size >= self.bytes_read)` then
`self.buf.resize(buf_size, 0)`; `none` models the assertion panic, on
which nothing has been mutated. -/
def set_buf_size (buf_size : Nat) (s : InputReader) : Option InputReader :=
  if s.fill.length ≤ buf_size then some { s with cap := buf_size } else none

/-- Values produced by `k` successive `next_u64` calls, with a flag
recording whether all of them succeeded. -/
def run_next_u64s : Nat → InputReader → List Nat × Bool
  | 0, _ => ([], true)
  | k + 1, s =>
    match next_u64 s with
    | none => ([], false)
    | some (n, s') =>
      let p := run_next_u64s k s'
      (n :: p.1, p.2)

/-- Values produced by `k` successive `next_i64` calls. -/
def run_next_i64s : Nat → InputReader → List Int × Bool
  | 0, _ => ([], true)
  | k + 1, s =>
    match next_i64 s with
    | none => ([], false)
    | some (n, s') =>
      let p := run_next_i64s k s'
      (n :: p.1, p.2)

/-- Tokens produced by `k` successive `next_word` calls. -/
def run_next_words : Nat → InputReader → List (List Nat) × Bool
  | 0, _ => ([], true)
  | k + 1, s =>
    match next_word s with
    | none => ([], false)
    | some (w, s') =>
      let p := run_next_words k s'
      (w :: p.1, p.2)

/-- Lines produced by `k` successive `next_line` calls. -/
def run_next_lines : Nat → InputReader → List (List Nat) × Bool
  | 0, _ => ([], true)
  | k + 1, s =>
    match next_line s with
    | none => ([], false)
    | some (l, s') =>
      let p := run_next_lines k s'
      (l :: p.1, p.2)

end InputReader

/-!
List-level reference semantics.  Each `...L` function mirrors the
corresponding `InputReader` operation but acts directly on the list of
remaining input bytes; the simulation theorems below show that every
reader operation behaves like its `...L` counterpart on
`InputReader.remInput`, whatever the chunking of the source.
-/

/-- List-level `consume_until`: drop bytes until `test` holds, failing
at end of input. -/
def consume_untilL (test : Nat → Bool) : List Nat → Option (List Nat)
  | [] => none
  | c :: rest => if test c then some (c :: rest) else consume_untilL test rest

/-- List-level `consume_until_or_end(|c| c.is_ascii_graphic())`. -/
def dropNonGraphic (l : List Nat) : List Nat := l.dropWhile (fun c => !isAsciiGraphic c)

/-- List-level eager-mode trailing-whitespace skip. -/
def eager_skipL (eager : Bool) (l : List Nat) : List Nat := if eager then dropNonGraphic l else l

/-- List-level word-accumulation loop. -/
def next_word_goL : List Nat → List Nat → Option (List Nat × List Nat)
  | _, [] => none
  | acc, c :: rest =>
    if isAsciiGraphic c then
      match rest with
      | [] => some (acc ++ [c], [])
      | _ :: _ => next_word_goL (acc ++ [c]) rest
    else some (acc, c :: rest)

/-- List-level `next_word`. -/
def next_wordL (eager : Bool) (l : List Nat) : Option (List Nat × List Nat) :=
  match (if eager then some l else consume_untilL isAsciiGraphic l) with
  | none => none
  | some l1 =>
    match next_word_goL [] l1 with
    | none => none
    | some (w, l2) => some (w, eager_skipL eager l2)

/-- List-level line-accumulation loop. -/
def next_line_goL : List Nat → List Nat → Option (List Nat × List Nat)
  | _, [] => none
  | acc, c :: rest =>
    if c = 10 then some (acc, rest)
    else
      match rest with
      | [] => some (acc ++ [c], [])
      | _ :: _ => next_line_goL (acc ++ [c]) rest

/-- List-level `next_line_no_skip`. -/
def next_line_no_skipL (l : List Nat) : Option (List Nat × List Nat) :=
  next_line_goL [] l

/-- List-level `next_line`. -/
def next_lineL (eager : Bool) (l : List Nat) : Option (List Nat × List Nat) :=
  match next_line_goL [] l with
  | none => none
  | some (t, l1) => some (t, eager_skipL eager l1)

/-- List-level digit-accumulation loop. -/
def next_u64_goL : Nat → List Nat → Option (Nat × List Nat)
  | _, [] => none
  | num, c :: rest =>
    if isAsciiDigit c then
      let num2 := (num * 10 + (c - 48)) % InputReader.U64_MOD
      match rest with
      | [] => some (num2, [])
      | _ :: _ => next_u64_goL num2 rest
    else some (num, c :: rest)

/-- List-level `next_u64`. -/
def next_u64L (eager : Bool) (l : List Nat) : Option (Nat × List Nat) :=
  match consume_untilL isAsciiDigit l with
  | none => none
  | some l1 =>
    match next_u64_goL 0 l1 with
    | none => none
    | some (n, l2) => some (n, eager_skipL eager l2)

/-- List-level loop of `consume_until_signed_num` (same fuel discipline
as the reader version). -/
def consume_until_signed_num_goL : Nat → List Nat → Option (Int × List Nat)
  | 0, _ => none
  | fuel + 1, l =>
    match consume_untilL (fun c => isAsciiDigit c || c == 45) l with
    | none => none
    | some [] => none
    | some (c :: rest) =>
      if c ≠ 45 then some (1, c :: rest)
      else
        match rest with
        | [] => none
        | d :: rest2 =>
          if isAsciiDigit d then some (-1, d :: rest2)
          else consume_until_signed_num_goL fuel (d :: rest2)

/-- List-level `consume_until_signed_num`. -/
def consume_until_signed_numL (l : List Nat) : Option (Int × List Nat) :=
  consume_until_signed_num_goL (l.length + 1) l

/-- List-level `next_i64`. -/
def next_i64L (eager : Bool) (l : List Nat) : Option (Int × List Nat) :=
  match consume_until_signed_numL l with
  | none => none
  | some (sign, l1) =>
    match next_u64L eager l1 with
    | none => none
    | some (n, l2) => some (InputReader.i64_wrap (InputReader.u64_as_i64 n * sign), l2)

/-- List-level run of `k` `next_u64` calls. -/
def run_next_u64sL (eager : Bool) : Nat → List Nat → List Nat × Bool
  | 0, _ => ([], true)
  | k + 1, l =>
    match next_u64L eager l with
    | none => ([], false)
    | some (n, l') =>
      let p := run_next_u64sL eager k l'
      (n :: p.1, p.2)

/-- List-level run of `k` `next_i64` calls. -/
def run_next_i64sL (eager : Bool) : Nat → List Nat → List Int × Bool
  | 0, _ => ([], true)
  | k + 1, l =>
    match next_i64L eager l with
    | none => ([], false)
    | some (n, l') =>
      let p := run_next_i64sL eager k l'
      (n :: p.1, p.2)

/-- List-level run of `k` `next_word` calls. -/
def run_next_wordsL (eager : Bool) : Nat → List Nat → List (List Nat) × Bool
  | 0, _ => ([], true)
  | k + 1, l =>
    match next_wordL eager l with
    | none => ([], false)
    | some (w, l') =>
      let p := run_next_wordsL eager k l'
      (w :: p.1, p.2)

/-- A byte sink (`W: Write`): bytes delivered so far, plus two flags
programming whether its `write_all` / `flush` operations fail. -/
structure Sink where
  received : List Nat
  failWrite : Bool
  failFlush : Bool
deriving Repr, DecidableEq

/-- `writer.write_all(bytes)`: error or deliver every byte in order. -/
def Sink.write_all (bytes : List Nat) (k : Sink) : Except Unit Sink :=
  if k.failWrite then Except.error () else Except.ok { k with received := k.received ++ bytes }

/-- `writer.flush()` on the sink. -/
def Sink.flushSink (k : Sink) : Except Unit Sink :=
  if k.failFlush then Except.error () else Except.ok k

/-- State of `OutputWriter<W>`: the sink and the internal byte buffer. -/
structure OutputWriter where
  writer : Sink
  buf : List Nat
deriving Repr, DecidableEq

namespace OutputWriter

/-- `from_writer`: fresh writer with an empty buffer. -/
def from_writer (k : Sink) : OutputWriter := { writer := k, buf := [] }

/-- `Write::write`: append to the internal buffer, never fails. -/
def write (bytes : List Nat) (w : OutputWriter) : OutputWriter :=
  { w with buf := w.buf ++ bytes }

/-- `print(t)` where `bytes` is the textual representation of `t`. -/
def print (bytes : List Nat) (w : OutputWriter) : OutputWriter := write bytes w

/-- `prints(t)`: textual representation followed by one space. -/
def prints (bytes : List Nat) (w : OutputWriter) : OutputWriter := write (bytes ++ [32]) w

/-- `println(t)`: textual representation followed by one newline. -/
def println (bytes : List Nat) (w : OutputWriter) : OutputWriter := write (bytes ++ [10]) w

/-- `nl()`. -/
def nl (w : OutputWriter) : OutputWriter := { w with buf := w.buf ++ [10] }

/-- `yesno(b)`. -/
def yesno (b : Bool) (w : OutputWriter) : OutputWriter :=
  println (if b then [89, 69, 83] else [78, 79]) w

/-- `s2nl`: rewrite the last buffered byte; `none` models the
`Buffer is empty` panic. -/
def s2nl (w : OutputWriter) : Option OutputWriter :=
  match w.buf.getLast? with
  | some 32 => some { w with buf := w.buf.dropLast ++ [10] }
  | some 10 => some w
  | some _ => some { w with buf := w.buf ++ [10] }
  | none => none

/-- `Write::flush`: `write_all` the buffer, flush the sink, then clear
the buffer; on error the writer is returned unchanged except for sink
effects that already happened. -/
def flush (w : OutputWriter) : Except Unit Unit × OutputWriter :=
  match Sink.write_all w.buf w.writer with
  | Except.error e => (Except.error e, w)
  | Except.ok k1 =>
    match Sink.flushSink k1 with
    | Except.error e => (Except.error e, { w with writer := k1 })
    | Except.ok k2 => (Except.ok (), { writer := k2, buf := [] })

/-- `Drop::drop`: `if !buf.is_empty() { s2nl() }; flush().unwrap()`;
`none` models the panic of the final `unwrap`. -/
def drop (w : OutputWriter) : Option OutputWriter :=
  match (if w.buf.isEmpty then some w else s2nl w) with
  | none => none
  | some w1 =>
    match flush w1 with
    | (Except.ok _, w2) => some w2
    | (Except.error _, _) => none

end OutputWriter

/-- Byte sequence obtained by printing each token followed by a space
and then collapsing the final trailing space into a newline: the tokens
separated by single spaces, terminated by one newline.  (The `[]` case
is a filler; it is only used for nonempty token lists.) -/
def blobNL : List (List Nat) → List Nat
  | [] => [10]
  | [t] => t ++ [10]
  | t :: t2 :: ts => t ++ 32 :: blobNL (t2 :: ts)

/-- Writing a list of textual values with `prints`, one after another. -/
def writeTokens (ts : List (List Nat)) (w : OutputWriter) : OutputWriter :=
  ts.foldl (fun w t => OutputWriter.prints t w) w

/-!
Basic lemmas about the reader state machine: refilling never changes the
remaining input, and `peek`/`consume` behave like `head`/`tail` on it.
-/

namespace InputReader

theorem consume_remInput_eq {s : InputReader} :
    (consume s).remInput = s.fill.drop (s.current_index + 1) ++ s.chunks.flatten := rfl

theorem refill_spec (s : InputReader) (h : WF s) :
    (refill s).remInput = s.remInput ∧ WF (refill s) ∧
    (refill s).egearly_consume_whitespace = s.egearly_consume_whitespace ∧
    (s.remInput ≠ [] → (refill s).current_index < (refill s).fill.length) ∧
    (0 < (refill s).fill.length ↔ s.remInput ≠ []) := by
  obtain ⟨hch, hcap⟩ := h
  unfold refill
  by_cases hlt : s.current_index < s.fill.length
  · rw [if_pos hlt]
    have hdrop : s.fill.drop s.current_index ≠ [] := by
      rw [Ne, List.drop_eq_nil_iff]; omega
    have hne : s.remInput ≠ [] := by
      unfold remInput
      intro hc
      exact hdrop (List.append_eq_nil.mp hc).1
    exact ⟨rfl, ⟨hch, hcap⟩, rfl, fun _ => hlt,
      ⟨fun _ => hne, fun _ => Nat.lt_of_le_of_lt (Nat.zero_le _) hlt⟩⟩
  · rw [if_neg hlt]
    have hdrop : s.fill.drop s.current_index = [] := by
      rw [List.drop_eq_nil_iff]; omega
    have hrem : s.remInput = s.chunks.flatten := by
      unfold remInput; rw [hdrop, List.nil_append]
    rcases hc : s.chunks with _ | ⟨c, rest⟩
    · have hnil : s.remInput = [] := by rw [hrem, hc]; rfl
      refine ⟨?_, ?_, rfl, ?_, ?_⟩
      · show List.drop 0 [] ++ List.flatten [] = s.remInput
        rw [hnil]; rfl
      · exact ⟨by simp, hcap⟩
      · intro hne; exact absurd hnil hne
      · simp [hnil]
    · have hcne : c ≠ [] := hch c (by rw [hc]; exact List.mem_cons_self c rest)
      have hremc : s.remInput = c ++ rest.flatten := by rw [hrem, hc, List.flatten_cons]
      have hremne : s.remInput ≠ [] := by
        rw [hremc]
        intro habs
        exact hcne (List.append_eq_nil.mp habs).1
      have hfill : 0 < (c.take s.cap).length := by
        rw [List.length_take]
        have : 0 < c.length := List.length_pos.mpr hcne
        omega
      have hrfl : (if (c.drop s.cap).isEmpty then rest else c.drop s.cap :: rest).flatten
          = c.drop s.cap ++ rest.flatten := by
        by_cases hemp : (c.drop s.cap).isEmpty
        · rw [if_pos hemp, List.isEmpty_iff.mp hemp, List.nil_append]
        · rw [if_neg hemp, List.flatten_cons]
      refine ⟨?_, ?_, rfl, fun _ => hfill, ⟨fun _ => hremne, fun _ => hfill⟩⟩
      · show List.drop 0 (c.take s.cap) ++ _ = s.remInput
        rw [List.drop_zero, hrfl, hremc, ← List.append_assoc, List.take_append_drop]
      · refine ⟨?_, hcap⟩
        show ∀ d ∈ (if (List.drop s.cap c).isEmpty = true then rest
          else List.drop s.cap c :: rest), d ≠ []
        intro d hd
        by_cases hemp : (c.drop s.cap).isEmpty
        · rw [if_pos hemp] at hd
          exact hch d (by rw [hc]; exact List.mem_cons_of_mem c hd)
        · rw [if_neg hemp] at hd
          rcases List.mem_cons.mp hd with h1 | h1
          · rw [h1, Ne, ← List.isEmpty_iff]; exact hemp
          · exact hch d (by rw [hc]; exact List.mem_cons_of_mem c h1)

theorem has_more_spec {s : InputReader} (h : WF s) :
    has_more s = (decide (s.remInput ≠ []), refill s) := by
  have h5 := (refill_spec s h).2.2.2.2
  unfold has_more
  exact Prod.ext (decide_eq_decide.mpr h5) rfl

theorem peek_none {s : InputReader} (h : WF s) (hnil : s.remInput = []) : peek s = none := by
  have h5 := (refill_spec s h).2.2.2.2
  have hfalse : ¬0 < (refill s).fill.length := fun hpos => (h5.mp hpos) hnil
  simp [peek, has_more, hfalse]

theorem peek_some {s : InputReader} {c : Nat} {cs : List Nat} (h : WF s)
    (hrem : s.remInput = c :: cs) :
    peek s = some (c, refill s) ∧ (refill s).remInput = c :: cs ∧ WF (refill s) ∧
    (refill s).egearly_consume_whitespace = s.egearly_consume_whitespace ∧
    (consume (refill s)).remInput = cs ∧ WF (consume (refill s)) ∧
    (consume (refill s)).egearly_consume_whitespace = s.egearly_consume_whitespace := by
  obtain ⟨h1, h2, h3, h4, h5⟩ := refill_spec s h
  have hne : s.remInput ≠ [] := by rw [hrem]; exact List.cons_ne_nil c cs
  have hlt : (refill s).current_index < (refill s).fill.length := h4 hne
  have hrem' : (refill s).remInput = c :: cs := h1.trans hrem
  have hsplit : (refill s).fill[(refill s).current_index] = c ∧
      (refill s).fill.drop ((refill s).current_index + 1) ++ (refill s).chunks.flatten = cs := by
    have hx := hrem'
    unfold remInput at hx
    rw [List.drop_eq_getElem_cons hlt, List.cons_append] at hx
    exact ⟨(List.cons.injEq _ _ _ _).mp hx |>.1, (List.cons.injEq _ _ _ _).mp hx |>.2⟩
  have hpos : 0 < (refill s).fill.length := h5.mpr hne
  refine ⟨?_, hrem', h2, h3, ?_, h2, h3⟩
  · simp only [peek, has_more]
    rw [if_pos (by exact decide_eq_true hpos)]
    rw [List.getD_eq_getElem _ _ hlt, hsplit.1]
  · rw [consume_remInput_eq]
    exact hsplit.2

theorem opt_peek_spec (s : InputReader) :
    opt_peek s = ((peek s).map Prod.fst, refill s) := by
  by_cases hb : (has_more s).1 = true
  · simp only [opt_peek, peek, hb, if_true]; rfl
  · simp only [opt_peek, peek, hb, if_false]; rfl

theorem opt_peek_none {s : InputReader} (h : WF s) (hnil : s.remInput = []) :
    opt_peek s = (none, refill s) := by
  rw [opt_peek_spec, peek_none h hnil]; rfl

theorem opt_peek_some {s : InputReader} {c : Nat} {cs : List Nat} (h : WF s)
    (hrem : s.remInput = c :: cs) :
    opt_peek s = (some c, refill s) := by
  rw [opt_peek_spec, (peek_some h hrem).1]; rfl

/-!
Simulation of the `consume_until` loops by their list-level versions.
-/

theorem consume_until_go_sim (test : Nat → Bool) :
    ∀ fuel (s : InputReader), WF s → s.remInput.length < fuel →
      (consume_untilL test s.remInput = none → consume_until_go test fuel s = none) ∧
      (∀ l', consume_untilL test s.remInput = some l' →
        ∃ s', consume_until_go test fuel s = some s' ∧ s'.remInput = l' ∧ WF s' ∧
          s'.egearly_consume_whitespace = s.egearly_consume_whitespace) := by
  intro fuel
  induction fuel with
  | zero => intro s _ hf; exact absurd hf (Nat.not_lt_zero _)
  | succ n ih =>
    intro s hWF hf
    rcases hrem : s.remInput with _ | ⟨c, cs⟩
    · refine ⟨fun _ => ?_, fun l' hl' => ?_⟩
      · simp only [consume_until_go, peek_none hWF hrem]
      · simp [consume_untilL] at hl'
    · obtain ⟨hpeek, hrs, hrWF, hreag, hcrem, hcWF, hceag⟩ := peek_some hWF hrem
      rcases ht : test c with _ | _
      · have hlen : (consume (refill s)).remInput.length < n := by
          rw [hcrem]
          have hx : s.remInput.length = cs.length + 1 := by rw [hrem]; rfl
          omega
        obtain ⟨ihn, ihs⟩ := ih (consume (refill s)) hcWF hlen
        refine ⟨fun hnone => ?_, fun l' hl' => ?_⟩
        · simp only [consume_untilL, ht, Bool.false_eq_true, if_false] at hnone
          simp only [consume_until_go, hpeek, ht, Bool.false_eq_true, if_false]
          exact ihn (by rw [hcrem]; exact hnone)
        · simp only [consume_untilL, ht, Bool.false_eq_true, if_false] at hl'
          obtain ⟨s', h1, h2, h3, h4⟩ := ihs l' (by rw [hcrem]; exact hl')
          refine ⟨s', ?_, h2, h3, h4.trans hceag⟩
          simp only [consume_until_go, hpeek, ht, Bool.false_eq_true, if_false]
          exact h1
      · refine ⟨fun hnone => ?_, fun l' hl' => ?_⟩
        · simp [consume_untilL, ht] at hnone
        · simp only [consume_untilL, ht, if_true] at hl'
          refine ⟨refill s, ?_, ?_, hrWF, hreag⟩
          · simp only [consume_until_go, hpeek, ht, if_true]
          · rw [hrs, ← Option.some.inj hl']

theorem consume_until_sim (test : Nat → Bool) {s : InputReader} (hWF : WF s) :
    (consume_untilL test s.remInput = none → consume_until test s = none) ∧
    (∀ l', consume_untilL test s.remInput = some l' →
      ∃ s', consume_until test s = some s' ∧ s'.remInput = l' ∧ WF s' ∧
        s'.egearly_consume_whitespace = s.egearly_consume_whitespace) :=
  consume_until_go_sim test (s.remInput.length + 1) s hWF (Nat.lt_succ_self _)

theorem consume_until_or_end_go_sim (test : Nat → Bool) :
    ∀ fuel (s : InputReader), WF s → s.remInput.length < fuel →
      (consume_until_or_end_go test fuel s).remInput
          = s.remInput.dropWhile (fun c => !test c) ∧
      WF (consume_until_or_end_go test fuel s) ∧
      (consume_until_or_end_go test fuel s).egearly_consume_whitespace
          = s.egearly_consume_whitespace := by
  intro fuel
  induction fuel with
  | zero => intro s _ hf; exact absurd hf (Nat.not_lt_zero _)
  | succ n ih =>
    intro s hWF hf
    rcases hrem : s.remInput with _ | ⟨c, cs⟩
    · obtain ⟨h1, h2, h3, _, _⟩ := refill_spec s hWF
      simp only [consume_until_or_end_go, opt_peek_none hWF hrem]
      rw [List.dropWhile_nil]
      exact ⟨h1.trans hrem, h2, h3⟩
    · obtain ⟨_, hrs, hrWF, hreag, hcrem, hcWF, hceag⟩ := peek_some hWF hrem
      rcases ht : test c with _ | _
      · have hlen : (consume (refill s)).remInput.length < n := by
          rw [hcrem]
          have hx : s.remInput.length = cs.length + 1 := by rw [hrem]; rfl
          omega
        obtain ⟨ih1, ih2, ih3⟩ := ih (consume (refill s)) hcWF hlen
        have hdw : List.dropWhile (fun c => !test c) (c :: cs)
            = List.dropWhile (fun c => !test c) cs := by
          simp [List.dropWhile_cons, ht]
        simp only [consume_until_or_end_go, opt_peek_some hWF hrem, ht, Bool.false_eq_true,
          if_false]
        rw [hdw]
        exact ⟨by rw [ih1, hcrem], ih2, ih3.trans hceag⟩
      · have hdw : List.dropWhile (fun c => !test c) (c :: cs) = c :: cs := by
          simp [List.dropWhile_cons, ht]
        simp only [consume_until_or_end_go, opt_peek_some hWF hrem, ht, if_true]
        rw [hdw]
        exact ⟨hrs, hrWF, hreag⟩

theorem consume_until_or_end_sim (test : Nat → Bool) {s : InputReader} (hWF : WF s) :
    (consume_until_or_end test s).remInput = s.remInput.dropWhile (fun c => !test c) ∧
    WF (consume_until_or_end test s) ∧
    (consume_until_or_end test s).egearly_consume_whitespace
        = s.egearly_consume_whitespace :=
  consume_until_or_end_go_sim test (s.remInput.length + 1) s hWF (Nat.lt_succ_self _)

theorem eager_skip_sim {s : InputReader} (hWF : WF s) :
    (eager_skip s).remInput = eager_skipL s.egearly_consume_whitespace s.remInput ∧
    WF (eager_skip s) ∧
    (eager_skip s).egearly_consume_whitespace = s.egearly_consume_whitespace := by
  unfold eager_skip eager_skipL dropNonGraphic
  by_cases he : s.egearly_consume_whitespace = true
  · rw [if_pos he, if_pos he]
    exact consume_until_or_end_sim isAsciiGraphic hWF
  · rw [if_neg he, if_neg he]
    exact ⟨rfl, hWF, rfl⟩

theorem next_word_go_sim :
    ∀ fuel (s : InputReader) (acc : List Nat), WF s → s.remInput.length < fuel →
      (next_word_goL acc s.remInput = none → next_word_go fuel acc s = none) ∧
      (∀ w l', next_word_goL acc s.remInput = some (w, l') →
        ∃ s', next_word_go fuel acc s = some (w, s') ∧ s'.remInput = l' ∧ WF s' ∧
          s'.egearly_consume_whitespace = s.egearly_consume_whitespace) := by
  intro fuel
  induction fuel with
  | zero => intro s acc _ hf; exact absurd hf (Nat.not_lt_zero _)
  | succ n ih =>
    intro s acc hWF hf
    rcases hrem : s.remInput with _ | ⟨c, cs⟩
    · refine ⟨fun _ => ?_, fun w l' hl' => ?_⟩
      · simp only [next_word_go, peek_none hWF hrem]
      · simp [next_word_goL] at hl'
    · obtain ⟨hpeek, hrs, hrWF, hreag, hcrem, hcWF, hceag⟩ := peek_some hWF hrem
      rcases ht : isAsciiGraphic c with _ | _
      · refine ⟨fun hnone => ?_, fun w l' hl' => ?_⟩
        · simp [next_word_goL, ht] at hnone
        · simp only [next_word_goL, ht, Bool.false_eq_true, if_false] at hl'
          obtain ⟨hw, hl2⟩ : acc = w ∧ c :: cs = l' := by simpa using hl'
          refine ⟨refill s, ?_, ?_, hrWF, hreag⟩
          · simp only [next_word_go, hpeek, ht, Bool.false_eq_true, if_false, hw]
          · rw [hrs, ← hl2]
      · have hhm := has_more_spec hcWF
        obtain ⟨hr1, hr2, hr3, _, _⟩ := refill_spec (consume (refill s)) hcWF
        rcases hcs : cs with _ | ⟨d, ds⟩
        · rw [hcs] at hcrem
          refine ⟨fun hnone => ?_, fun w l' hl' => ?_⟩
          · simp [next_word_goL, ht] at hnone
          · simp only [next_word_goL, ht, if_true] at hl'
            obtain ⟨hw, hl2⟩ : acc ++ [c] = w ∧ ([] : List Nat) = l' := by simpa using hl'
            refine ⟨refill (consume (refill s)), ?_, ?_, hr2, hr3.trans hceag⟩
            · simp only [next_word_go, hpeek, ht, if_true, hhm, hcrem]
              simp [hw]
            · rw [hr1, hcrem, ← hl2]
        · rw [hcs] at hcrem
          have hlen : (refill (consume (refill s))).remInput.length < n := by
            rw [hr1, hcrem]
            have hx : s.remInput.length = cs.length + 1 := by rw [hrem, hcs]; rfl
            rw [hcs] at hx
            omega
          have hrrem : (refill (consume (refill s))).remInput = d :: ds := hr1.trans hcrem
          obtain ⟨ihn, ihs⟩ := ih (refill (consume (refill s))) (acc ++ [c]) hr2 hlen
          rw [hrrem] at ihn ihs
          refine ⟨fun hnone => ?_, fun w l' hl' => ?_⟩
          · simp only [next_word_goL, ht, if_true] at hnone
            simp only [next_word_go, hpeek, ht, if_true, hhm, hcrem]
            simp only [ne_eq, List.cons_ne_nil, not_false_eq_true, decide_True, if_true]
            exact ihn hnone
          · simp only [next_word_goL, ht, if_true] at hl'
            obtain ⟨s', h1, h2, h3, h4⟩ := ihs w l' hl'
            refine ⟨s', ?_, h2, h3, (h4.trans hr3).trans hceag⟩
            simp only [next_word_go, hpeek, ht, if_true, hhm, hcrem]
            simp only [ne_eq, List.cons_ne_nil, not_false_eq_true, decide_True, if_true]
            exact h1

theorem next_u64_go_sim :
    ∀ fuel (s : InputReader) (num : Nat), WF s → s.remInput.length < fuel →
      (next_u64_goL num s.remInput = none → next_u64_go fuel num s = none) ∧
      (∀ v l', next_u64_goL num s.remInput = some (v, l') →
        ∃ s', next_u64_go fuel num s = some (v, s') ∧ s'.remInput = l' ∧ WF s' ∧
          s'.egearly_consume_whitespace = s.egearly_consume_whitespace) := by
  intro fuel
  induction fuel with
  | zero => intro s num _ hf; exact absurd hf (Nat.not_lt_zero _)
  | succ n ih =>
    intro s num hWF hf
    rcases hrem : s.remInput with _ | ⟨c, cs⟩
    · refine ⟨fun _ => ?_, fun v l' hl' => ?_⟩
      · simp only [next_u64_go, peek_none hWF hrem]
      · simp [next_u64_goL] at hl'
    · obtain ⟨hpeek, hrs, hrWF, hreag, hcrem, hcWF, hceag⟩ := peek_some hWF hrem
      rcases ht : isAsciiDigit c with _ | _
      · refine ⟨fun hnone => ?_, fun v l' hl' => ?_⟩
        · simp [next_u64_goL, ht] at hnone
        · simp only [next_u64_goL, ht, Bool.false_eq_true, if_false] at hl'
          obtain ⟨hw, hl2⟩ : num = v ∧ c :: cs = l' := by simpa using hl'
          refine ⟨refill s, ?_, ?_, hrWF, hreag⟩
          · simp only [next_u64_go, hpeek, ht, Bool.false_eq_true, if_false, hw]
          · rw [hrs, ← hl2]
      · have hhm := has_more_spec hcWF
        obtain ⟨hr1, hr2, hr3, _, _⟩ := refill_spec (consume (refill s)) hcWF
        rcases hcs : cs with _ | ⟨d, ds⟩
        · rw [hcs] at hcrem
          refine ⟨fun hnone => ?_, fun v l' hl' => ?_⟩
          · simp [next_u64_goL, ht] at hnone
          · simp only [next_u64_goL, ht, if_true] at hl'
            obtain ⟨hw, hl2⟩ : (num * 10 + (c - 48)) % U64_MOD = v ∧ ([] : List Nat) = l' := by
              simpa using hl'
            refine ⟨refill (consume (refill s)), ?_, ?_, hr2, hr3.trans hceag⟩
            · simp only [next_u64_go, hpeek, ht, if_true, hhm, hcrem]
              simp [hw]
            · rw [hr1, hcrem, ← hl2]
        · rw [hcs] at hcrem
          have hlen : (refill (consume (refill s))).remInput.length < n := by
            rw [hr1, hcrem]
            have hx : s.remInput.length = cs.length + 1 := by rw [hrem, hcs]; rfl
            rw [hcs] at hx
            omega
          have hrrem : (refill (consume (refill s))).remInput = d :: ds := hr1.trans hcrem
          obtain ⟨ihn, ihs⟩ :=
            ih (refill (consume (refill s))) ((num * 10 + (c - 48)) % U64_MOD) hr2 hlen
          rw [hrrem] at ihn ihs
          refine ⟨fun hnone => ?_, fun v l' hl' => ?_⟩
          · simp only [next_u64_goL, ht, if_true] at hnone
            simp only [next_u64_go, hpeek, ht, if_true, hhm, hcrem]
            simp only [ne_eq, List.cons_ne_nil, not_false_eq_true, decide_True, if_true]
            exact ihn hnone
          · simp only [next_u64_goL, ht, if_true] at hl'
            obtain ⟨s', h1, h2, h3, h4⟩ := ihs v l' hl'
            refine ⟨s', ?_, h2, h3, (h4.trans hr3).trans hceag⟩
            simp only [next_u64_go, hpeek, ht, if_true, hhm, hcrem]
            simp only [ne_eq, List.cons_ne_nil, not_false_eq_true, decide_True, if_true]
            exact h1

theorem next_line_go_sim :
    ∀ fuel (s : InputReader) (acc : List Nat), WF s → s.remInput.length < fuel →
      (next_line_goL acc s.remInput = none → next_line_go fuel acc s = none) ∧
      (∀ t l', next_line_goL acc s.remInput = some (t, l') →
        ∃ s', next_line_go fuel acc s = some (t, s') ∧ s'.remInput = l' ∧ WF s' ∧
          s'.egearly_consume_whitespace = s.egearly_consume_whitespace) := by
  intro fuel
  induction fuel with
  | zero => intro s acc _ hf; exact absurd hf (Nat.not_lt_zero _)
  | succ n ih =>
    intro s acc hWF hf
    rcases hrem : s.remInput with _ | ⟨c, cs⟩
    · refine ⟨fun _ => ?_, fun t l' hl' => ?_⟩
      · simp only [next_line_go, peek_none hWF hrem]
      · simp [next_line_goL] at hl'
    · obtain ⟨hpeek, hrs, hrWF, hreag, hcrem, hcWF, hceag⟩ := peek_some hWF hrem
      by_cases hc10 : c = 10
      · subst hc10
        refine ⟨fun hnone => ?_, fun t l' hl' => ?_⟩
        · simp [next_line_goL] at hnone
        · have hl2 : next_line_goL acc (10 :: cs) = some (acc, cs) := by
            simp [next_line_goL]
          rw [hl2] at hl'
          obtain ⟨hw, hcs'⟩ : acc = t ∧ cs = l' := by simpa using hl'
          refine ⟨consume (refill s), ?_, ?_, hcWF, hceag⟩
          · have hstate : next_line_go (n + 1) acc s = some (acc, consume (refill s)) := by
              simp [next_line_go, hpeek]
            rw [hstate, hw]
          · rw [hcrem, ← hcs']
      · have hhm := has_more_spec hcWF
        obtain ⟨hr1, hr2, hr3, _, _⟩ := refill_spec (consume (refill s)) hcWF
        rcases hcs : cs with _ | ⟨d, ds⟩
        · rw [hcs] at hcrem
          refine ⟨fun hnone => ?_, fun t l' hl' => ?_⟩
          · simp [next_line_goL, hc10] at hnone
          · have hl2 : next_line_goL acc [c] = some (acc ++ [c], []) := by
              simp [next_line_goL, hc10]
            rw [hl2] at hl'
            obtain ⟨hw, hcs'⟩ : acc ++ [c] = t ∧ ([] : List Nat) = l' := by simpa using hl'
            refine ⟨refill (consume (refill s)), ?_, ?_, hr2, hr3.trans hceag⟩
            · have hstate : next_line_go (n + 1) acc s
                  = some (acc ++ [c], refill (consume (refill s))) := by
                simp only [next_line_go, hpeek]
                rw [if_neg hc10]
                simp [hhm, hcrem]
              rw [hstate, hw]
            · rw [hr1, hcrem, ← hcs']
        · rw [hcs] at hcrem
          have hlen : (refill (consume (refill s))).remInput.length < n := by
            rw [hr1, hcrem]
            have hx : s.remInput.length = cs.length + 1 := by rw [hrem, hcs]; rfl
            rw [hcs] at hx
            omega
          have hrrem : (refill (consume (refill s))).remInput = d :: ds := hr1.trans hcrem
          obtain ⟨ihn, ihs⟩ := ih (refill (consume (refill s))) (acc ++ [c]) hr2 hlen
          rw [hrrem] at ihn ihs
          have hl2 : next_line_goL acc (c :: d :: ds) = next_line_goL (acc ++ [c]) (d :: ds) := by
            simp [next_line_goL, hc10]
          have hstate : next_line_go (n + 1) acc s
              = next_line_go n (acc ++ [c]) (refill (consume (refill s))) := by
            simp only [next_line_go, hpeek]
            rw [if_neg hc10]
            simp [hhm, hcrem]
          refine ⟨fun hnone => ?_, fun t l' hl' => ?_⟩
          · rw [hl2] at hnone
            rw [hstate]
            exact ihn hnone
          · rw [hl2] at hl'
            obtain ⟨s', h1, h2, h3, h4⟩ := ihs t l' hl'
            refine ⟨s', ?_, h2, h3, (h4.trans hr3).trans hceag⟩
            rw [hstate]
            exact h1

theorem lazy_skip_sim {s : InputReader} (hWF : WF s) :
    ((if s.egearly_consume_whitespace then some s.remInput
        else consume_untilL isAsciiGraphic s.remInput) = none → lazy_skip_to_graphic s = none) ∧
    (∀ l', (if s.egearly_consume_whitespace then some s.remInput
        else consume_untilL isAsciiGraphic s.remInput) = some l' →
      ∃ s', lazy_skip_to_graphic s = some s' ∧ s'.remInput = l' ∧ WF s' ∧
        s'.egearly_consume_whitespace = s.egearly_consume_whitespace) := by
  unfold lazy_skip_to_graphic
  by_cases he : s.egearly_consume_whitespace = true
  · rw [if_pos he, if_pos he]
    refine ⟨fun h => absurd h (by simp), fun l' hl' => ?_⟩
    exact ⟨s, rfl, Option.some.inj hl', hWF, rfl⟩
  · rw [if_neg he, if_neg he]
    exact consume_until_sim isAsciiGraphic hWF

theorem next_word_sim {s : InputReader} (hWF : WF s) :
    (next_wordL s.egearly_consume_whitespace s.remInput = none → next_word s = none) ∧
    (∀ w l', next_wordL s.egearly_consume_whitespace s.remInput = some (w, l') →
      ∃ s', next_word s = some (w, s') ∧ s'.remInput = l' ∧ WF s' ∧
        s'.egearly_consume_whitespace = s.egearly_consume_whitespace) := by
  obtain ⟨hskn, hsks⟩ := lazy_skip_sim hWF
  rcases hL1 : (if s.egearly_consume_whitespace then some s.remInput
      else consume_untilL isAsciiGraphic s.remInput) with _ | l1
  · have h1 : next_word s = none := by unfold next_word; rw [hskn hL1]
    have h2 : next_wordL s.egearly_consume_whitespace s.remInput = none := by
      unfold next_wordL; rw [hL1]
    rw [h1, h2]
    exact ⟨fun _ => rfl, fun w l' h => by simp at h⟩
  · obtain ⟨s1, hs1, hrem1, hWF1, heag1⟩ := hsks l1 hL1
    have hstep : next_word s = (match next_word_go (s1.remInput.length + 1) [] s1 with
        | none => none
        | some (w, s2) => some (w, eager_skip s2)) := by
      unfold next_word; rw [hs1]
    have hLstep : next_wordL s.egearly_consume_whitespace s.remInput
        = (match next_word_goL [] l1 with
          | none => none
          | some (w, l2) => some (w, eager_skipL s.egearly_consume_whitespace l2)) := by
      unfold next_wordL; rw [hL1]
    obtain ⟨hgn, hgs⟩ := next_word_go_sim (s1.remInput.length + 1) s1 [] hWF1 (Nat.lt_succ_self _)
    rw [hrem1] at hgn hgs hstep
    rcases hL2 : next_word_goL [] l1 with _ | ⟨w0, l2⟩
    · rw [hstep, hgn hL2, hLstep, hL2]
      exact ⟨fun _ => rfl, fun w l' h => by simp at h⟩
    · obtain ⟨s2, hs2, hrem2, hWF2, heag2⟩ := hgs w0 l2 hL2
      rw [hstep, hs2, hLstep, hL2]
      obtain ⟨he1, he2, he3⟩ := eager_skip_sim hWF2
      refine ⟨fun h => by simp at h, fun w l' hl' => ?_⟩
      obtain ⟨hw, hl2'⟩ : w0 = w ∧ eager_skipL s.egearly_consume_whitespace l2 = l' := by
        simpa using hl'
      refine ⟨eager_skip s2, ?_, ?_, he2, he3.trans (heag2.trans heag1)⟩
      · rw [hw]
      · rw [he1, hrem2, heag2, heag1]
        exact hl2'

theorem next_u64_sim {s : InputReader} (hWF : WF s) :
    (next_u64L s.egearly_consume_whitespace s.remInput = none → next_u64 s = none) ∧
    (∀ v l', next_u64L s.egearly_consume_whitespace s.remInput = some (v, l') →
      ∃ s', next_u64 s = some (v, s') ∧ s'.remInput = l' ∧ WF s' ∧
        s'.egearly_consume_whitespace = s.egearly_consume_whitespace) := by
  obtain ⟨hcn, hcs⟩ := consume_until_sim isAsciiDigit hWF
  rcases hL1 : consume_untilL isAsciiDigit s.remInput with _ | l1
  · have h1 : next_u64 s = none := by unfold next_u64; rw [hcn hL1]
    have h2 : next_u64L s.egearly_consume_whitespace s.remInput = none := by
      unfold next_u64L; rw [hL1]
    rw [h1, h2]
    exact ⟨fun _ => rfl, fun v l' h => by simp at h⟩
  · obtain ⟨s1, hs1, hrem1, hWF1, heag1⟩ := hcs l1 hL1
    have hstep : next_u64 s = (match next_u64_go (s1.remInput.length + 1) 0 s1 with
        | none => none
        | some (n, s2) => some (n, eager_skip s2)) := by
      unfold next_u64; rw [hs1]
    have hLstep : next_u64L s.egearly_consume_whitespace s.remInput
        = (match next_u64_goL 0 l1 with
          | none => none
          | some (n, l2) => some (n, eager_skipL s.egearly_consume_whitespace l2)) := by
      unfold next_u64L; rw [hL1]
    obtain ⟨hgn, hgs⟩ := next_u64_go_sim (s1.remInput.length + 1) s1 0 hWF1 (Nat.lt_succ_self _)
    rw [hrem1] at hgn hgs hstep
    rcases hL2 : next_u64_goL 0 l1 with _ | ⟨v0, l2⟩
    · rw [hstep, hgn hL2, hLstep, hL2]
      exact ⟨fun _ => rfl, fun v l' h => by simp at h⟩
    · obtain ⟨s2, hs2, hrem2, hWF2, heag2⟩ := hgs v0 l2 hL2
      rw [hstep, hs2, hLstep, hL2]
      obtain ⟨he1, he2, he3⟩ := eager_skip_sim hWF2
      refine ⟨fun h => by simp at h, fun v l' hl' => ?_⟩
      obtain ⟨hv, hl2'⟩ : v0 = v ∧ eager_skipL s.egearly_consume_whitespace l2 = l' := by
        simpa using hl'
      refine ⟨eager_skip s2, ?_, ?_, he2, he3.trans (heag2.trans heag1)⟩
      · rw [hv]
      · rw [he1, hrem2, heag2, heag1]
        exact hl2'

theorem next_line_no_skip_sim {s : InputReader} (hWF : WF s) :
    (next_line_no_skipL s.remInput = none → next_line_no_skip s = none) ∧
    (∀ t l', next_line_no_skipL s.remInput = some (t, l') →
      ∃ s', next_line_no_skip s = some (t, s') ∧ s'.remInput = l' ∧ WF s' ∧
        s'.egearly_consume_whitespace = s.egearly_consume_whitespace) :=
  next_line_go_sim (s.remInput.length + 1) s [] hWF (Nat.lt_succ_self _)

theorem next_line_sim {s : InputReader} (hWF : WF s) :
    (next_lineL s.egearly_consume_whitespace s.remInput = none → next_line s = none) ∧
    (∀ t l', next_lineL s.egearly_consume_whitespace s.remInput = some (t, l') →
      ∃ s', next_line s = some (t, s') ∧ s'.remInput = l' ∧ WF s' ∧
        s'.egearly_consume_whitespace = s.egearly_consume_whitespace) := by
  obtain ⟨hgn, hgs⟩ := next_line_no_skip_sim hWF
  rcases hL1 : next_line_goL [] s.remInput with _ | ⟨t0, l1⟩
  · have h1 : next_line s = none := by
      unfold next_line; rw [hgn (by unfold next_line_no_skipL; rw [hL1])]
    have h2 : next_lineL s.egearly_consume_whitespace s.remInput = none := by
      unfold next_lineL; rw [hL1]
    rw [h1, h2]
    exact ⟨fun _ => rfl, fun t l' h => by simp at h⟩
  · obtain ⟨s1, hs1, hrem1, hWF1, heag1⟩ := hgs t0 l1 (by unfold next_line_no_skipL; rw [hL1])
    have hstep : next_line s = some (t0, eager_skip s1) := by
      unfold next_line; rw [hs1]
    have hLstep : next_lineL s.egearly_consume_whitespace s.remInput
        = some (t0, eager_skipL s.egearly_consume_whitespace l1) := by
      unfold next_lineL; rw [hL1]
    rw [hstep, hLstep]
    obtain ⟨he1, he2, he3⟩ := eager_skip_sim hWF1
    refine ⟨fun h => by simp at h, fun t l' hl' => ?_⟩
    obtain ⟨ht, hl2'⟩ : t0 = t ∧ eager_skipL s.egearly_consume_whitespace l1 = l' := by
      simpa using hl'
    refine ⟨eager_skip s1, ?_, ?_, he2, he3.trans heag1⟩
    · rw [ht]
    · rw [he1, hrem1, heag1]
      exact hl2'

theorem consume_until_signed_num_go_sim :
    ∀ fuel (s : InputReader), WF s →
      (consume_until_signed_num_goL fuel s.remInput = none →
        consume_until_signed_num_go fuel s = none) ∧
      (∀ sg l', consume_until_signed_num_goL fuel s.remInput = some (sg, l') →
        ∃ s', consume_until_signed_num_go fuel s = some (sg, s') ∧ s'.remInput = l' ∧ WF s' ∧
          s'.egearly_consume_whitespace = s.egearly_consume_whitespace) := by
  intro fuel
  induction fuel with
  | zero =>
    intro s _
    exact ⟨fun _ => rfl, fun sg l' h => by simp [consume_until_signed_num_goL] at h⟩
  | succ n ih =>
    intro s hWF
    obtain ⟨hcn, hcs⟩ := consume_until_sim (fun c => isAsciiDigit c || c == 45) hWF
    rcases hL1 : consume_untilL (fun c => isAsciiDigit c || c == 45) s.remInput with _ | l1
    · have h1 : consume_until_signed_num_go (n + 1) s = none := by
        unfold consume_until_signed_num_go; rw [hcn hL1]
      have h2 : consume_until_signed_num_goL (n + 1) s.remInput = none := by
        unfold consume_until_signed_num_goL; rw [hL1]
      rw [h1, h2]
      exact ⟨fun _ => rfl, fun sg l' h => by simp at h⟩
    · obtain ⟨s1, hs1, hrem1, hWF1, heag1⟩ := hcs l1 hL1
      rcases hl1c : l1 with _ | ⟨c, rest⟩
      · rw [hl1c] at hrem1 hL1
        have h1 : consume_until_signed_num_go (n + 1) s = none := by
          unfold consume_until_signed_num_go
          simp only [hs1, peek_none hWF1 hrem1]
        have h2 : consume_until_signed_num_goL (n + 1) s.remInput = none := by
          unfold consume_until_signed_num_goL; simp only [hL1]
        rw [h1, h2]
        exact ⟨fun _ => rfl, fun sg l' h => by simp at h⟩
      · rw [hl1c] at hrem1 hL1
        obtain ⟨hpeek, hrs, hrWF, hreag, hcrem, hcWF, hceag⟩ := peek_some hWF1 hrem1
        by_cases h45 : c = 45
        · rcases hrest : rest with _ | ⟨d, rest2⟩
          · rw [hrest] at hcrem hL1
            have h1 : consume_until_signed_num_go (n + 1) s = none := by
              unfold consume_until_signed_num_go
              simp only [hs1, hpeek]
              rw [if_neg (not_not_intro h45)]
              simp only [peek_none hcWF hcrem]
            have h2 : consume_until_signed_num_goL (n + 1) s.remInput = none := by
              unfold consume_until_signed_num_goL
              simp only [hL1]
              rw [if_neg (not_not_intro h45)]
            rw [h1, h2]
            exact ⟨fun _ => rfl, fun sg l' h => by simp at h⟩
          · rw [hrest] at hcrem hL1
            obtain ⟨hpeek2, hrs2, hrWF2, hreag2, _, _, _⟩ := peek_some hcWF hcrem
            rcases hd : isAsciiDigit d with _ | _
            · have h1 : consume_until_signed_num_go (n + 1) s
                  = consume_until_signed_num_go n (refill (consume (refill s1))) := by
                simp only [consume_until_signed_num_go, hs1, hpeek]
                rw [if_neg (not_not_intro h45)]
                simp only [hpeek2, hd, Bool.false_eq_true, if_false]
              have h2 : consume_until_signed_num_goL (n + 1) s.remInput
                  = consume_until_signed_num_goL n (d :: rest2) := by
                simp only [consume_until_signed_num_goL, hL1]
                rw [if_neg (not_not_intro h45)]
                simp only [hd, Bool.false_eq_true, if_false]
              obtain ⟨ihn, ihs⟩ := ih (refill (consume (refill s1))) hrWF2
              rw [hrs2] at ihn ihs
              rw [h1, h2]
              refine ⟨ihn, fun sg l' hl' => ?_⟩
              obtain ⟨s', k1, k2, k3, k4⟩ := ihs sg l' hl'
              exact ⟨s', k1, k2, k3,
                k4.trans ((hreag2.trans hceag).trans heag1)⟩
            · have h1 : consume_until_signed_num_go (n + 1) s
                  = some (-1, refill (consume (refill s1))) := by
                unfold consume_until_signed_num_go
                simp only [hs1, hpeek]
                rw [if_neg (not_not_intro h45)]
                simp only [hpeek2, hd, if_true]
              have h2 : consume_until_signed_num_goL (n + 1) s.remInput
                  = some (-1, d :: rest2) := by
                unfold consume_until_signed_num_goL
                simp only [hL1]
                rw [if_neg (not_not_intro h45)]
                simp only [hd, if_true]
              rw [h1, h2]
              refine ⟨fun h => by simp at h, fun sg l' hl' => ?_⟩
              obtain ⟨hsg, hll⟩ : (-1 : Int) = sg ∧ d :: rest2 = l' := by simpa using hl'
              refine ⟨refill (consume (refill s1)), ?_, ?_, hrWF2,
                (hreag2.trans hceag).trans heag1⟩
              · rw [hsg]
              · rw [hrs2, ← hll]
        · have h1 : consume_until_signed_num_go (n + 1) s = some (1, refill s1) := by
            unfold consume_until_signed_num_go
            simp only [hs1, hpeek]
            rw [if_pos h45]
          have h2 : consume_until_signed_num_goL (n + 1) s.remInput
              = some (1, c :: rest) := by
            unfold consume_until_signed_num_goL
            simp only [hL1]
            rw [if_pos h45]
          rw [h1, h2]
          refine ⟨fun h => by simp at h, fun sg l' hl' => ?_⟩
          obtain ⟨hsg, hll⟩ : (1 : Int) = sg ∧ c :: rest = l' := by simpa using hl'
          refine ⟨refill s1, ?_, ?_, hrWF, hreag.trans heag1⟩
          · rw [hsg]
          · rw [hrs, ← hll]

theorem consume_until_signed_num_sim {s : InputReader} (hWF : WF s) :
    (consume_until_signed_numL s.remInput = none → consume_until_signed_num s = none) ∧
    (∀ sg l', consume_until_signed_numL s.remInput = some (sg, l') →
      ∃ s', consume_until_signed_num s = some (sg, s') ∧ s'.remInput = l' ∧ WF s' ∧
        s'.egearly_consume_whitespace = s.egearly_consume_whitespace) := by
  unfold consume_until_signed_num consume_until_signed_numL
  exact consume_until_signed_num_go_sim (s.remInput.length + 1) s hWF

theorem next_i64_sim {s : InputReader} (hWF : WF s) :
    (next_i64L s.egearly_consume_whitespace s.remInput = none → next_i64 s = none) ∧
    (∀ v l', next_i64L s.egearly_consume_whitespace s.remInput = some (v, l') →
      ∃ s', next_i64 s = some (v, s') ∧ s'.remInput = l' ∧ WF s' ∧
        s'.egearly_consume_whitespace = s.egearly_consume_whitespace) := by
  obtain ⟨hcn, hcs⟩ := consume_until_signed_num_sim hWF
  rcases hL1 : consume_until_signed_numL s.remInput with _ | ⟨sg, l1⟩
  · have h1 : next_i64 s = none := by unfold next_i64; rw [hcn hL1]
    have h2 : next_i64L s.egearly_consume_whitespace s.remInput = none := by
      unfold next_i64L; rw [hL1]
    rw [h1, h2]
    exact ⟨fun _ => rfl, fun v l' h => by simp at h⟩
  · obtain ⟨s1, hs1, hrem1, hWF1, heag1⟩ := hcs sg l1 hL1
    obtain ⟨hun, hus⟩ := next_u64_sim hWF1
    rw [hrem1, heag1] at hun hus
    rcases hL2 : next_u64L s.egearly_consume_whitespace l1 with _ | ⟨n0, l2⟩
    · have h1 : next_i64 s = none := by unfold next_i64; simp only [hs1, hun hL2]
      have h2 : next_i64L s.egearly_consume_whitespace s.remInput = none := by
        unfold next_i64L; simp only [hL1, hL2]
      rw [h1, h2]
      exact ⟨fun _ => rfl, fun v l' h => by simp at h⟩
    · obtain ⟨s2, hs2, hrem2, hWF2, heag2⟩ := hus n0 l2 hL2
      have h1 : next_i64 s = some (i64_wrap (u64_as_i64 n0 * sg), s2) := by
        unfold next_i64; simp only [hs1, hs2]
      have h2 : next_i64L s.egearly_consume_whitespace s.remInput
          = some (i64_wrap (u64_as_i64 n0 * sg), l2) := by
        unfold next_i64L; simp only [hL1, hL2]
      rw [h1, h2]
      refine ⟨fun h => by simp at h, fun v l' hl' => ?_⟩
      obtain ⟨hv, hll⟩ : i64_wrap (u64_as_i64 n0 * sg) = v ∧ l2 = l' := by simpa using hl'
      refine ⟨s2, ?_, ?_, hWF2, heag2⟩
      · rw [hv]
      · rw [hrem2, ← hll]

theorem run_next_u64s_sim :
    ∀ k (s : InputReader), WF s →
      run_next_u64s k s = run_next_u64sL s.egearly_consume_whitespace k s.remInput := by
  intro k
  induction k with
  | zero => intro s _; rfl
  | succ n ih =>
    intro s hWF
    obtain ⟨hn, hs⟩ := next_u64_sim hWF
    rcases hL : next_u64L s.egearly_consume_whitespace s.remInput with _ | ⟨v, l'⟩
    · have h1 : run_next_u64s (n + 1) s = ([], false) := by
        unfold run_next_u64s; simp only [hn hL]
      have h2 : run_next_u64sL s.egearly_consume_whitespace (n + 1) s.remInput = ([], false) := by
        unfold run_next_u64sL; simp only [hL]
      rw [h1, h2]
    · obtain ⟨s', h1, h2, h3, h4⟩ := hs v l' hL
      have hst : run_next_u64s (n + 1) s
          = (v :: (run_next_u64s n s').1, (run_next_u64s n s').2) := by
        simp only [run_next_u64s, h1]
      have hLs : run_next_u64sL s.egearly_consume_whitespace (n + 1) s.remInput
          = (v :: (run_next_u64sL s.egearly_consume_whitespace n l').1,
             (run_next_u64sL s.egearly_consume_whitespace n l').2) := by
        simp only [run_next_u64sL, hL]
      rw [hst, hLs, ih s' h3, h4, h2]

theorem run_next_i64s_sim :
    ∀ k (s : InputReader), WF s →
      run_next_i64s k s = run_next_i64sL s.egearly_consume_whitespace k s.remInput := by
  intro k
  induction k with
  | zero => intro s _; rfl
  | succ n ih =>
    intro s hWF
    obtain ⟨hn, hs⟩ := next_i64_sim hWF
    rcases hL : next_i64L s.egearly_consume_whitespace s.remInput with _ | ⟨v, l'⟩
    · have h1 : run_next_i64s (n + 1) s = ([], false) := by
        unfold run_next_i64s; simp only [hn hL]
      have h2 : run_next_i64sL s.egearly_consume_whitespace (n + 1) s.remInput = ([], false) := by
        unfold run_next_i64sL; simp only [hL]
      rw [h1, h2]
    · obtain ⟨s', h1, h2, h3, h4⟩ := hs v l' hL
      have hst : run_next_i64s (n + 1) s
          = (v :: (run_next_i64s n s').1, (run_next_i64s n s').2) := by
        simp only [run_next_i64s, h1]
      have hLs : run_next_i64sL s.egearly_consume_whitespace (n + 1) s.remInput
          = (v :: (run_next_i64sL s.egearly_consume_whitespace n l').1,
             (run_next_i64sL s.egearly_consume_whitespace n l').2) := by
        simp only [run_next_i64sL, hL]
      rw [hst, hLs, ih s' h3, h4, h2]

theorem run_next_words_sim :
    ∀ k (s : InputReader), WF s →
      run_next_words k s = run_next_wordsL s.egearly_consume_whitespace k s.remInput := by
  intro k
  induction k with
  | zero => intro s _; rfl
  | succ n ih =>
    intro s hWF
    obtain ⟨hn, hs⟩ := next_word_sim hWF
    rcases hL : next_wordL s.egearly_consume_whitespace s.remInput with _ | ⟨w, l'⟩
    · have h1 : run_next_words (n + 1) s = ([], false) := by
        unfold run_next_words; simp only [hn hL]
      have h2 : run_next_wordsL s.egearly_consume_whitespace (n + 1) s.remInput
          = ([], false) := by
        unfold run_next_wordsL; simp only [hL]
      rw [h1, h2]
    · obtain ⟨s', h1, h2, h3, h4⟩ := hs w l' hL
      have hst : run_next_words (n + 1) s
          = (w :: (run_next_words n s').1, (run_next_words n s').2) := by
        simp only [run_next_words, h1]
      have hLs : run_next_wordsL s.egearly_consume_whitespace (n + 1) s.remInput
          = (w :: (run_next_wordsL s.egearly_consume_whitespace n l').1,
             (run_next_wordsL s.egearly_consume_whitespace n l').2) := by
        simp only [run_next_wordsL, hL]
      rw [hst, hLs, ih s' h3, h4, h2]

theorem from_reader_spec (chunks : List (List Nat)) (e : Bool)
    (hch : ∀ c ∈ chunks, c ≠ []) :
    WF (from_reader chunks e) ∧
    (from_reader chunks e).egearly_consume_whitespace = e ∧
    (from_reader chunks e).remInput
        = (if e then dropNonGraphic chunks.flatten else chunks.flatten) := by
  have hWF0 : WF ({ chunks := chunks, fill := [], current_index := 0, cap := 2 ^ 16,
                    egearly_consume_whitespace := e } : InputReader) := ⟨hch, by norm_num⟩
  have hrem0 : ({ chunks := chunks, fill := [], current_index := 0, cap := 2 ^ 16,
                  egearly_consume_whitespace := e } : InputReader).remInput = chunks.flatten := rfl
  unfold from_reader
  rcases e with _ | _
  · simp only [Bool.false_eq_true, if_false]
    exact ⟨hWF0, trivial, hrem0⟩
  · simp only [if_true]
    obtain ⟨hc1, hc2, hc3⟩ := consume_until_or_end_sim isAsciiGraphic hWF0
    exact ⟨hc2, hc3, by rw [hc1, hrem0]; rfl⟩

/-- C1: for every finite input byte sequence and every two ways of
partitioning it into (nonempty) chunks delivered by successive reads —
in particular one byte per read versus the whole input at once —
repeatedly calling `next_u64` (resp. `next_i64`) yields exactly the same
sequence of numeric values, in either whitespace-consumption mode.
Stated for an arbitrary number `k` of calls; the `Bool` component
records whether all `k` calls succeeded, so the full traces agree. -/
theorem next_u64_i64_chunking_independent (P Q : List (List Nat)) (e : Bool) (k : Nat)
    (hP : ∀ c ∈ P, c ≠ []) (hQ : ∀ c ∈ Q, c ≠ []) (hPQ : P.flatten = Q.flatten) :
    run_next_u64s k (from_reader P e) = run_next_u64s k (from_reader Q e) ∧
    run_next_i64s k (from_reader P e) = run_next_i64s k (from_reader Q e) := by
  obtain ⟨hWFP, heP, hrP⟩ := from_reader_spec P e hP
  obtain ⟨hWFQ, heQ, hrQ⟩ := from_reader_spec Q e hQ
  constructor
  · rw [run_next_u64s_sim k _ hWFP, run_next_u64s_sim k _ hWFQ, heP, heQ, hrP, hrQ, hPQ]
  · rw [run_next_i64s_sim k _ hWFP, run_next_i64s_sim k _ hWFQ, heP, heQ, hrP, hrQ, hPQ]

/-- Witness for C1: the input `"12 34"` delivered one byte per read
versus all at once, in eager mode, for two `next_u64` / `next_i64`
calls; both chunkings produce the values `[12, 34]`. -/
theorem next_u64_i64_chunking_independent_witness :
    run_next_u64s 2 (from_reader [[49], [50], [32], [51], [52]] true)
        = run_next_u64s 2 (from_reader [[49, 50, 32, 51, 52]] true) ∧
    run_next_i64s 2 (from_reader [[49], [50], [32], [51], [52]] true)
        = run_next_i64s 2 (from_reader [[49, 50, 32, 51, 52]] true) ∧
    run_next_u64s 2 (from_reader [[49, 50, 32, 51, 52]] true) = ([12, 34], true) := by
  obtain ⟨h1, h2⟩ := next_u64_i64_chunking_independent
    [[49], [50], [32], [51], [52]] [[49, 50, 32, 51, 52]] true 2
    (by decide) (by decide) (by decide)
  exact ⟨h1, h2, by decide⟩

end InputReader

/-!
Declarative characterizations of the list-level reference functions.
-/

theorem consume_untilL_eq (test : Nat → Bool) (l : List Nat) :
    consume_untilL test l =
      (if l.dropWhile (fun c => !test c) = [] then none
       else some (l.dropWhile (fun c => !test c))) := by
  induction l with
  | nil => rfl
  | cons c rest ih =>
    rcases ht : test c with _ | _
    · simp only [consume_untilL, ht, Bool.false_eq_true, if_false]
      rw [ih]
      have hdw : List.dropWhile (fun c => !test c) (c :: rest)
          = List.dropWhile (fun c => !test c) rest := by
        simp [List.dropWhile_cons, ht]
      rw [hdw]
    · have hdw : List.dropWhile (fun c => !test c) (c :: rest) = c :: rest := by
        simp [List.dropWhile_cons, ht]
      simp only [consume_untilL, ht, if_true, hdw]
      rw [if_neg (List.cons_ne_nil c rest)]

theorem next_u64_goL_spec (num : Nat) (l : List Nat) (hne : l ≠ []) :
    next_u64_goL num l
      = some (List.foldl (fun a c => (a * 10 + (c - 48)) % InputReader.U64_MOD) num
                (l.takeWhile isAsciiDigit),
              l.dropWhile isAsciiDigit) := by
  induction l generalizing num with
  | nil => exact absurd rfl hne
  | cons c rest ih =>
    rcases ht : isAsciiDigit c with _ | _
    · have htw : List.takeWhile isAsciiDigit (c :: rest) = [] := by
        simp [List.takeWhile_cons, ht]
      have hdw : List.dropWhile isAsciiDigit (c :: rest) = c :: rest := by
        simp [List.dropWhile_cons, ht]
      simp only [next_u64_goL, ht, Bool.false_eq_true, if_false, htw, hdw, List.foldl_nil]
    · have htw : List.takeWhile isAsciiDigit (c :: rest)
          = c :: List.takeWhile isAsciiDigit rest := by
        simp [List.takeWhile_cons, ht]
      have hdw : List.dropWhile isAsciiDigit (c :: rest)
          = List.dropWhile isAsciiDigit rest := by
        simp [List.dropWhile_cons, ht]
      rcases hrest : rest with _ | ⟨d, ds⟩
      · subst hrest
        simp [next_u64_goL, ht, List.takeWhile_cons, List.dropWhile_cons]
      · have hrestne : rest ≠ [] := by rw [hrest]; exact List.cons_ne_nil d ds
        have hstep : next_u64_goL num (c :: rest)
            = next_u64_goL ((num * 10 + (c - 48)) % InputReader.U64_MOD) rest := by
          rw [hrest]
          simp only [next_u64_goL, ht, if_true]
        rw [← hrest, hstep, ih ((num * 10 + (c - 48)) % InputReader.U64_MOD) hrestne, htw, hdw,
          List.foldl_cons]

theorem next_u64L_eq (e : Bool) (l : List Nat) :
    next_u64L e l =
      (if l.dropWhile (fun c => !isAsciiDigit c) = [] then none
       else some (List.foldl (fun a c => (a * 10 + (c - 48)) % InputReader.U64_MOD) 0
            ((l.dropWhile (fun c => !isAsciiDigit c)).takeWhile isAsciiDigit),
          eager_skipL e ((l.dropWhile (fun c => !isAsciiDigit c)).dropWhile isAsciiDigit))) := by
  unfold next_u64L
  rw [consume_untilL_eq]
  by_cases hnil : l.dropWhile (fun c => !isAsciiDigit c) = []
  · rw [if_pos hnil, if_pos hnil]
  · rw [if_neg hnil, if_neg hnil]
    simp only [next_u64_goL_spec 0 _ hnil]

/-- No-digit inputs are exactly the inputs on which the digit scan fails. -/
theorem consume_untilL_isAsciiDigit_none_iff (l : List Nat) :
    consume_untilL isAsciiDigit l = none ↔ ∀ c ∈ l, isAsciiDigit c = false := by
  rw [consume_untilL_eq]
  by_cases hnil : l.dropWhile (fun c => !isAsciiDigit c) = []
  · rw [if_pos hnil]
    simp only [true_iff]
    rw [List.dropWhile_eq_nil_iff] at hnil
    intro c hc
    have := hnil c hc
    simpa using this
  · rw [if_neg hnil]
    constructor
    · intro h; exact absurd h (by simp)
    · intro hall
      exfalso
      apply hnil
      rw [List.dropWhile_eq_nil_iff]
      intro c hc
      simp [hall c hc]

theorem isAsciiDigit_ne_45 {d : Nat} (hd : isAsciiDigit d = true) : d ≠ 45 := by
  intro h
  subst h
  exact absurd hd (by decide)

theorem consume_until_signed_num_goL_spec :
    ∀ fuel (u : List Nat) (d : Nat) (v : List Nat),
      (u ++ d :: v).length < fuel →
      (∀ c ∈ u, isAsciiDigit c = false) → isAsciiDigit d = true →
      consume_until_signed_num_goL fuel (u ++ d :: v)
        = some ((if u.getLast? = some 45 then -1 else 1 : Int), d :: v) := by
  intro fuel
  induction fuel with
  | zero => intro u d v hf _ _; exact absurd hf (Nat.not_lt_zero _)
  | succ n ihf =>
    intro u
    induction u with
    | nil =>
      intro d v _ _ hd
      have hcu : consume_untilL (fun c => isAsciiDigit c || c == 45) (d :: v)
          = some (d :: v) := by
        simp [consume_untilL, hd]
      simp only [List.nil_append]
      simp only [consume_until_signed_num_goL, hcu]
      rw [if_pos (isAsciiDigit_ne_45 hd)]
      simp
    | cons a u' ihu =>
      intro d v hf hu hd
      have ha : isAsciiDigit a = false := hu a (List.mem_cons_self a u')
      by_cases ha45 : a = 45
      · subst ha45
        simp only [List.cons_append] at hf ⊢
        have hcu : consume_untilL (fun c => isAsciiDigit c || c == 45) (45 :: (u' ++ d :: v))
            = some (45 :: (u' ++ d :: v)) := by
          simp [consume_untilL]
        rcases hsplit : u' ++ d :: v with _ | ⟨e, es⟩
        · exact absurd hsplit (by simp)
        · have hfin : consume_until_signed_num_goL (n + 1) (45 :: (u' ++ d :: v))
              = (if isAsciiDigit e then some ((-1 : Int), e :: es)
                 else consume_until_signed_num_goL n (e :: es)) := by
            simp only [consume_until_signed_num_goL, hcu]
            rw [if_neg (not_not_intro rfl), hsplit]
          rcases hu' : u' with _ | ⟨b, u''⟩
          · subst hu'
            simp only [List.nil_append] at hsplit
            injection hsplit with h1 h2
            subst h1
            subst h2
            simp only [List.nil_append] at hfin
            rw [hfin]
            simp [hd]
          · subst hu'
            simp only [List.cons_append] at hsplit hfin ⊢
            injection hsplit with h1 h2
            subst h1
            subst h2
            have hb : isAsciiDigit b = false :=
              hu b (List.mem_cons_of_mem _ (List.mem_cons_self _ _))
            rw [hfin]
            simp only [hb, Bool.false_eq_true, if_false]
            have hlen : ((b :: u'') ++ d :: v).length < n := by
              simp only [List.cons_append, List.length_append, List.length_cons] at hf ⊢
              omega
            have hres := ihf (b :: u'') d v hlen
              (fun c hc => hu c (List.mem_cons_of_mem _ hc)) hd
            rw [List.cons_append] at hres
            rw [hres, List.getLast?_cons_cons]
      · have hcu : consume_untilL (fun c => isAsciiDigit c || c == 45) ((a :: u') ++ d :: v)
            = consume_untilL (fun c => isAsciiDigit c || c == 45) (u' ++ d :: v) := by
          simp [consume_untilL, ha, ha45]
        have hstep : consume_until_signed_num_goL (n + 1) ((a :: u') ++ d :: v)
            = consume_until_signed_num_goL (n + 1) (u' ++ d :: v) := by
          simp only [consume_until_signed_num_goL]
          rw [hcu]
        rw [hstep]
        have hlen : (u' ++ d :: v).length < n + 1 := by
          simp only [List.cons_append, List.length_cons] at hf
          omega
        rw [ihu d v hlen (fun c hc => hu c (List.mem_cons_of_mem _ hc)) hd]
        rcases hu' : u' with _ | ⟨b, u''⟩
        · subst hu'
          simp [ha45]
        · subst hu'
          rw [List.getLast?_cons_cons]

theorem consume_until_signed_numL_spec (u : List Nat) (d : Nat) (v : List Nat)
    (hu : ∀ c ∈ u, isAsciiDigit c = false) (hd : isAsciiDigit d = true) :
    consume_until_signed_numL (u ++ d :: v)
      = some ((if u.getLast? = some 45 then -1 else 1 : Int), d :: v) :=
  consume_until_signed_num_goL_spec ((u ++ d :: v).length + 1) u d v (Nat.lt_succ_self _) hu hd

namespace InputReader

/-- C7: on any reader state, `next_u64` fails (models the `EndOfInput`
panic) exactly when no ASCII digit remains in the input; otherwise it
skips to the first digit, accumulates the maximal run of digit bytes as
`num = num * 10 + digit` left to right modulo `2 ^ 64` (wrapping, no
range check), and leaves the input positioned right after that run (up
to the eager-mode trailing-whitespace skip). -/
theorem next_u64_spec (s : InputReader) (hWF : WF s) :
    (next_u64 s = none ↔ ∀ c ∈ s.remInput, isAsciiDigit c = false) ∧
    (∀ n s', next_u64 s = some (n, s') →
      n = List.foldl (fun a c => (a * 10 + (c - 48)) % U64_MOD) 0
            ((s.remInput.dropWhile (fun c => !isAsciiDigit c)).takeWhile isAsciiDigit) ∧
      s'.remInput = eager_skipL s.egearly_consume_whitespace
            ((s.remInput.dropWhile (fun c => !isAsciiDigit c)).dropWhile isAsciiDigit)) := by
  obtain ⟨hn, hs⟩ := next_u64_sim hWF
  rw [next_u64L_eq] at hn hs
  by_cases hnil : s.remInput.dropWhile (fun c => !isAsciiDigit c) = []
  · rw [if_pos hnil] at hn hs
    constructor
    · constructor
      · intro _ c hc
        have := (List.dropWhile_eq_nil_iff.mp hnil) c hc
        simpa using this
      · intro _; exact hn rfl
    · intro n s' h
      rw [hn rfl] at h
      exact absurd h (by simp)
  · rw [if_neg hnil] at hn hs
    constructor
    · constructor
      · intro h0
        obtain ⟨s', hsome, _, _, _⟩ := hs _ _ rfl
        rw [h0] at hsome
        exact absurd hsome (by simp)
      · intro hall
        exfalso
        apply hnil
        rw [List.dropWhile_eq_nil_iff]
        intro c hc
        simp [hall c hc]
    · intro n s' h
      obtain ⟨s'', hsome, hrem, _, _⟩ := hs _ _ rfl
      rw [h] at hsome
      obtain ⟨h1, h2⟩ : n = _ ∧ s' = s'' := by
        have := hsome
        simp only [Option.some.injEq, Prod.mk.injEq] at this
        exact ⟨this.1, this.2⟩
      exact ⟨h1, by rw [h2, hrem]⟩

/-- Witness for C7: the input `"a-b"` contains no digit, so `next_u64`
fails with end of input. -/
theorem next_u64_spec_witness : next_u64 (from_reader [[97, 45, 98]] true) = none :=
  ((next_u64_spec (from_reader [[97, 45, 98]] true) (by decide)).1).mpr (by decide)

/-- C2: a `-` byte is taken as a numeric sign exactly when the byte
right after it is an ASCII digit.  In general: if the remaining input is
`u ++ d :: v` where `u` is digit-free and `d` is a digit, the sign scan
of `next_i64` succeeds, stops on `d`, and returns `-1` exactly when the
byte immediately before `d` is `-` (i.e. `u` ends in a `-`); any other
`-` in `u` is skipped as noise.  Concretely, three `next_i64` calls on
`"12-34- 56"` yield `12`, `-34`, `56`. -/
theorem next_i64_sign_adjacency :
    (∀ (s : InputReader) (u : List Nat) (d : Nat) (v : List Nat), WF s →
      s.remInput = u ++ d :: v → (∀ c ∈ u, isAsciiDigit c = false) →
      isAsciiDigit d = true →
      (consume_until_signed_num s).map (fun p => (p.1, p.2.remInput))
        = some ((if u.getLast? = some 45 then -1 else 1 : Int), d :: v)) ∧
    run_next_i64s 3 (from_reader [[49, 50, 45, 51, 52, 45, 32, 53, 54]] true)
      = ([12, -34, 56], true) := by
  constructor
  · intro s u d v hWF hrem hu hd
    obtain ⟨_, hcs⟩ := consume_until_signed_num_sim hWF
    have hL := consume_until_signed_numL_spec u d v hu hd
    rw [← hrem] at hL
    obtain ⟨s', h1, h2, _, _⟩ := hcs _ _ hL
    rw [h1]
    simp only [Option.map_some']
    rw [h2]
  · decide

/-- Witness for C2: on the input `"ab-12"` (lazy mode, so nothing is
pre-skipped) the sign scan returns `-1` — the `-` is adjacent to the
digit — and stops on the digit `1`. -/
theorem next_i64_sign_adjacency_witness :
    (consume_until_signed_num (from_reader [[97, 98, 45, 49, 50]] false)).map
        (fun p => (p.1, p.2.remInput)) = some ((-1 : Int), [49, 50]) := by
  have h := next_i64_sign_adjacency.1 (from_reader [[97, 98, 45, 49, 50]] false)
    [97, 98, 45] 49 [50] (by decide) (by decide) (by decide) (by decide)
  rw [show (if ([97, 98, 45] : List Nat).getLast? = some 45 then (-1 : Int) else 1) = -1
    from by decide] at h
  exact h

end InputReader

theorem next_line_goL_spec :
    ∀ (l : List Nat) (acc : List Nat), l ≠ [] →
      next_line_goL acc l
        = some (acc ++ l.takeWhile (fun c => !(c == 10)),
            (l.dropWhile (fun c => !(c == 10))).drop 1) := by
  intro l
  induction l with
  | nil => intro acc h; exact absurd rfl h
  | cons c rest ih =>
    intro acc _
    by_cases hc10 : c = 10
    · subst hc10
      simp [next_line_goL, List.takeWhile_cons, List.dropWhile_cons]
    · have htw : List.takeWhile (fun c => !(c == 10)) (c :: rest)
          = c :: List.takeWhile (fun c => !(c == 10)) rest := by
        simp [List.takeWhile_cons, hc10]
      have hdw : List.dropWhile (fun c => !(c == 10)) (c :: rest)
          = List.dropWhile (fun c => !(c == 10)) rest := by
        simp [List.dropWhile_cons, hc10]
      rcases hrest : rest with _ | ⟨d, ds⟩
      · subst hrest
        simp [next_line_goL, hc10, List.takeWhile_cons, List.dropWhile_cons]
      · have hrestne : rest ≠ [] := by rw [hrest]; exact List.cons_ne_nil d ds
        have hstep : next_line_goL acc (c :: rest) = next_line_goL (acc ++ [c]) rest := by
          rw [hrest]
          simp [next_line_goL, hc10]
        rw [← hrest, hstep, ih (acc ++ [c]) hrestne, htw, hdw]
        simp

theorem next_lineL_eq (e : Bool) (l : List Nat) (hne : l ≠ []) :
    next_lineL e l
      = some (l.takeWhile (fun c => !(c == 10)),
          eager_skipL e ((l.dropWhile (fun c => !(c == 10))).drop 1)) := by
  unfold next_lineL
  rw [next_line_goL_spec l [] hne]
  simp

namespace InputReader

/-- C8: `next_line` accumulates the bytes up to (excluding) the next
newline or the end of input, consumes the newline when present, and
performs no leading-whitespace skip of its own — leading spaces are part
of the returned line.  The final state is the rest of the input after
the newline (plus the eager-mode trailing skip).  Concretely, two calls
on `"abc\ndef\n"` yield `"abc"` then `"def"`, and the same holds without
the trailing newline, the last call succeeding on the remaining bytes. -/
theorem next_line_spec :
    (∀ (s : InputReader), WF s → s.remInput ≠ [] →
      (next_line s).map (fun p => (p.1, p.2.remInput))
        = some (s.remInput.takeWhile (fun c => !(c == 10)),
            eager_skipL s.egearly_consume_whitespace
              ((s.remInput.dropWhile (fun c => !(c == 10))).drop 1))) ∧
    run_next_lines 2 (from_reader [[97, 98, 99, 10, 100, 101, 102, 10]] true)
      = ([[97, 98, 99], [100, 101, 102]], true) ∧
    run_next_lines 2 (from_reader [[97, 98, 99, 10, 100, 101, 102]] true)
      = ([[97, 98, 99], [100, 101, 102]], true) := by
  refine ⟨?_, by decide, by decide⟩
  intro s hWF hne
  obtain ⟨_, hs⟩ := next_line_sim hWF
  have hL := next_lineL_eq s.egearly_consume_whitespace s.remInput hne
  obtain ⟨s', h1, h2, _, _⟩ := hs _ _ hL
  rw [h1]
  simp only [Option.map_some']
  rw [h2]

/-- Witness for C8: a line with a leading space is returned whole
(leading whitespace is not skipped), and the newline is consumed. -/
theorem next_line_spec_witness :
    (next_line (from_reader [[32, 97, 10, 98]] false)).map (fun p => (p.1, p.2.remInput))
      = some ([32, 97], [98]) := by
  have h := next_line_spec.1 (from_reader [[32, 97, 10, 98]] false) (by decide) (by decide)
  rw [h]
  decide

/-- C3 (counterexample): a reader state reached from `"abcde"` (lazy
mode) by three `next_char` calls has `bytes_read = 5` and
`current_index = 3`, so only 2 buffered bytes are unread; yet
`set_buf_size 4` fails, because the code asserts
`buf_size >= self.bytes_read` — it compares against all buffered bytes,
not the unread ones as the claim states. -/
theorem set_buf_size_unread_counterexample :
    ((next_char (from_reader [[97, 98, 99, 100, 101]] false)).bind fun p =>
        (next_char p.2).bind fun q => (next_char q.2).map fun r => r.2)
      = some { chunks := [], fill := [97, 98, 99, 100, 101], current_index := 3,
               cap := 65536, egearly_consume_whitespace := false } ∧
    set_buf_size 4 { chunks := [], fill := [97, 98, 99, 100, 101], current_index := 3,
                     cap := 65536, egearly_consume_whitespace := false } = none ∧
    ¬(4 < ({ chunks := [], fill := [97, 98, 99, 100, 101], current_index := 3,
             cap := 65536, egearly_consume_whitespace := false } : InputReader).fill.length
          - ({ chunks := [], fill := [97, 98, 99, 100, 101], current_index := 3,
               cap := 65536, egearly_consume_whitespace := false } : InputReader).current_index) := by
  refine ⟨by decide, by decide, by decide⟩

/-- C3 (amended): `set_buf_size new_size` fails exactly when `new_size`
is smaller than `bytes_read`, the total number of currently buffered
bytes (read or not) — not the unread count `bytes_read - cursor`.  On
failure nothing is mutated (no new state is produced; the assertion
fires before the resize); on success only the buffer capacity changes,
to `new_size`. -/
theorem set_buf_size_spec (s : InputReader) (n : Nat) :
    (set_buf_size n s = none ↔ n < s.fill.length) ∧
    (∀ s', set_buf_size n s = some s' → s' = { s with cap := n }) := by
  unfold set_buf_size
  by_cases h : s.fill.length ≤ n
  · rw [if_pos h]
    exact ⟨⟨fun hc => absurd hc (by simp), fun hlt => absurd h (by omega)⟩,
      fun s' hs' => (Option.some.inj hs').symm⟩
  · rw [if_neg h]
    exact ⟨⟨fun _ => by omega, fun _ => rfl⟩, fun s' hs' => absurd hs' (by simp)⟩

/-- Witness for the amended C3: with 5 buffered bytes, shrinking to 4
fails even though only 2 bytes are unread, and growing to 10 succeeds
changing only the capacity. -/
theorem set_buf_size_spec_witness :
    set_buf_size 4 { chunks := [], fill := [97, 98, 99, 100, 101], current_index := 3,
                     cap := 65536, egearly_consume_whitespace := false } = none ∧
    set_buf_size 10 { chunks := [], fill := [97, 98, 99, 100, 101], current_index := 3,
                      cap := 65536, egearly_consume_whitespace := false }
      = some { chunks := [], fill := [97, 98, 99, 100, 101], current_index := 3,
               cap := 10, egearly_consume_whitespace := false } := by
  constructor
  · exact (set_buf_size_spec { chunks := [], fill := [97, 98, 99, 100, 101],
                               current_index := 3, cap := 65536,
                               egearly_consume_whitespace := false } 4).1.mpr
      (by decide)
  · decide

end InputReader

namespace OutputWriter

theorem s2nl_eq_space {w : OutputWriter} (h : w.buf.getLast? = some 32) :
    s2nl w = some { w with buf := w.buf.dropLast ++ [10] } := by
  simp only [s2nl, h]

theorem s2nl_eq_newline {w : OutputWriter} (h : w.buf.getLast? = some 10) :
    s2nl w = some w := by
  simp only [s2nl, h]

theorem s2nl_eq_other {w : OutputWriter} {c : Nat} (h : w.buf.getLast? = some c)
    (h32 : c ≠ 32) (h10 : c ≠ 10) :
    s2nl w = some { w with buf := w.buf ++ [10] } := by
  unfold s2nl
  split
  · rename_i heq
    rw [h] at heq
    exact absurd (Option.some.inj heq) h32
  · rename_i heq
    rw [h] at heq
    exact absurd (Option.some.inj heq) h10
  · rfl
  · rename_i heq
    rw [h] at heq
    exact absurd heq (by simp)

theorem s2nl_eq_empty {w : OutputWriter} (h : w.buf = []) : s2nl w = none := by
  have hl : w.buf.getLast? = none := by rw [h]; rfl
  simp only [s2nl, hl]

/-- C5: `s2nl` replaces the last buffered byte with a newline when that
byte is a space, is a no-op when the last byte is already a newline, and
fails loudly (the `Buffer is empty` panic, modelled as `none`) when the
buffer is empty. -/
theorem s2nl_spec (w : OutputWriter) :
    (w.buf.getLast? = some 32 → s2nl w = some { w with buf := w.buf.dropLast ++ [10] }) ∧
    (w.buf.getLast? = some 10 → s2nl w = some w) ∧
    (w.buf = [] → s2nl w = none) :=
  ⟨fun h => s2nl_eq_space h, fun h => s2nl_eq_newline h, fun h => s2nl_eq_empty h⟩

/-- Witness for C5: the three cases on concrete buffers `"A "`, `"A\n"`
and `""`. -/
theorem s2nl_spec_witness :
    s2nl ⟨⟨[], false, false⟩, [65, 32]⟩ = some ⟨⟨[], false, false⟩, [65, 10]⟩ ∧
    s2nl ⟨⟨[], false, false⟩, [65, 10]⟩ = some ⟨⟨[], false, false⟩, [65, 10]⟩ ∧
    s2nl ⟨⟨[], false, false⟩, []⟩ = none := by
  refine ⟨?_, ?_, ?_⟩
  · have h := (s2nl_spec ⟨⟨[], false, false⟩, [65, 32]⟩).1 (by decide)
    rw [h]
    decide
  · have h := (s2nl_spec ⟨⟨[], false, false⟩, [65, 10]⟩).2.1 (by decide)
    rw [h]
  · exact (s2nl_spec ⟨⟨[], false, false⟩, []⟩).2.2 rfl

/-- C9: when the last buffered byte is neither a space nor a newline,
`s2nl` appends a newline; and after any successful `s2nl` the buffer is
nonempty, ends in a newline, and all bytes before the last pre-call byte
are unchanged. -/
theorem s2nl_newline_terminated :
    (∀ (w : OutputWriter) (c : Nat), w.buf.getLast? = some c → c ≠ 32 → c ≠ 10 →
      s2nl w = some { w with buf := w.buf ++ [10] }) ∧
    (∀ (w w' : OutputWriter), s2nl w = some w' →
      w'.buf ≠ [] ∧ w'.buf.getLast? = some 10 ∧
      w'.buf.take (w.buf.length - 1) = w.buf.take (w.buf.length - 1)) := by
  constructor
  · intro w c h h32 h10
    exact s2nl_eq_other h h32 h10
  · intro w w' hs
    rcases hlast : w.buf.getLast? with _ | c
    · rw [s2nl_eq_empty (List.getLast?_eq_none_iff.mp hlast)] at hs
      exact absurd hs (by simp)
    · by_cases h32 : c = 32
      · subst h32
        rw [s2nl_eq_space hlast] at hs
        rw [← Option.some.inj hs]
        refine ⟨by simp, by rw [List.getLast?_concat], ?_⟩
        have hlen : w.buf.dropLast.length = w.buf.length - 1 := List.length_dropLast _
        have h1 : List.take (w.buf.length - 1) (w.buf.dropLast ++ [10])
            = List.take (w.buf.length - 1) w.buf.dropLast :=
          List.take_append_of_le_length (by rw [hlen])
        rw [h1, List.dropLast_eq_take, List.take_take]
        simp
      · by_cases h10 : c = 10
        · subst h10
          rw [s2nl_eq_newline hlast] at hs
          rw [← Option.some.inj hs]
          refine ⟨?_, hlast, rfl⟩
          intro hnil
          rw [hnil] at hlast
          exact absurd hlast (by simp)
        · rw [s2nl_eq_other hlast h32 h10] at hs
          rw [← Option.some.inj hs]
          refine ⟨by simp, by rw [List.getLast?_concat], ?_⟩
          exact List.take_append_of_le_length (by omega)

/-- Witness for C9: appending the newline on a buffer ending in `'B'`. -/
theorem s2nl_newline_terminated_witness :
    s2nl ⟨⟨[], false, false⟩, [65, 66]⟩ = some ⟨⟨[], false, false⟩, [65, 66, 10]⟩ := by
  have h := s2nl_newline_terminated.1 ⟨⟨[], false, false⟩, [65, 66]⟩ 66
    (by decide) (by decide) (by decide)
  rw [h]
  decide

theorem flush_ok {w : OutputWriter} (hw : w.writer.failWrite = false)
    (hf : w.writer.failFlush = false) :
    flush w = (Except.ok (),
      { writer := { w.writer with received := w.writer.received ++ w.buf }, buf := [] }) := by
  simp [flush, Sink.write_all, Sink.flushSink, hw, hf]

/-- C10: when the sink rejects the write, or its flush fails, `flush`
propagates the error and leaves the internal buffer unchanged (it is
cleared only after both sink operations succeed), so no buffered byte is
dropped; a later retry on a then-accepting sink re-sends exactly those
bytes. -/
theorem flush_error_preserves_buffer (w : OutputWriter)
    (h : w.writer.failWrite = true ∨ w.writer.failFlush = true) :
    (flush w).1 = Except.error () ∧
    (flush w).2.buf = w.buf ∧
    flush { (flush w).2 with writer := { (flush w).2.writer with failWrite := false, failFlush := false } }
      = (Except.ok (),
         { writer := { (flush w).2.writer with failWrite := false, failFlush := false, received := (flush w).2.writer.received ++ w.buf },
           buf := [] }) := by
  rcases hfw : w.writer.failWrite with _ | _
  · have hff : w.writer.failFlush = true := by
      rcases h with h1 | h1
      · rw [hfw] at h1; exact absurd h1 (by simp)
      · exact h1
    have h1 : flush w = (Except.error (),
        { w with writer := { w.writer with received := w.writer.received ++ w.buf } }) := by
      simp [flush, Sink.write_all, Sink.flushSink, hfw, hff]
    rw [h1]
    refine ⟨rfl, rfl, ?_⟩
    rw [flush_ok rfl rfl]
  · have h1 : flush w = (Except.error (), w) := by
      simp [flush, Sink.write_all, hfw]
    rw [h1]
    refine ⟨rfl, rfl, ?_⟩
    rw [flush_ok rfl rfl]

/-- Witness for C10: a writer whose sink rejects the write keeps its two
buffered bytes through the failed flush. -/
theorem flush_error_preserves_buffer_witness :
    (flush ⟨⟨[5], true, false⟩, [7, 8]⟩).1 = Except.error () ∧
    (flush ⟨⟨[5], true, false⟩, [7, 8]⟩).2.buf = [7, 8] := by
  have h := flush_error_preserves_buffer ⟨⟨[5], true, false⟩, [7, 8]⟩ (Or.inl rfl)
  exact ⟨h.1, h.2.1⟩

/-- C4: releasing (dropping) a writer with a nonempty buffer delivers
every buffered byte to the sink exactly once — after a trailing space
has been collapsed to a newline (a trailing newline is kept, any other
trailing byte gets a newline appended) — leaving the sink contents equal
to everything previously flushed followed by these bytes, in order, and
the buffer empty. -/
theorem drop_delivers_all (w : OutputWriter) (hne : w.buf ≠ [])
    (hw : w.writer.failWrite = false) (hf : w.writer.failFlush = false) :
    OutputWriter.drop w = some
      { writer := { w.writer with received := w.writer.received ++
          (if w.buf.getLast? = some 32 then w.buf.dropLast ++ [10]
           else if w.buf.getLast? = some 10 then w.buf
           else w.buf ++ [10]) },
        buf := [] } := by
  have hempty : ¬w.buf.isEmpty = true := by
    rw [List.isEmpty_iff]
    exact hne
  rcases hlast : w.buf.getLast? with _ | c
  · exact absurd (List.getLast?_eq_none_iff.mp hlast) hne
  · by_cases h32 : c = 32
    · subst h32
      have hstep : OutputWriter.drop w
          = some { writer := { w.writer with received := w.writer.received ++
              (w.buf.dropLast ++ [10]) }, buf := [] } := by
        unfold OutputWriter.drop
        rw [if_neg hempty]
        simp only [s2nl_eq_space hlast]
        rw [flush_ok (w := { w with buf := w.buf.dropLast ++ [10] }) hw hf]
      rw [hstep]
      simp [hlast]
    · by_cases h10 : c = 10
      · subst h10
        have hstep : OutputWriter.drop w
            = some { writer := { w.writer with received := w.writer.received ++ w.buf },
                     buf := [] } := by
          unfold OutputWriter.drop
          rw [if_neg hempty]
          simp only [s2nl_eq_newline hlast]
          rw [flush_ok (w := w) hw hf]
        rw [hstep]
        simp [hlast]
      · have hstep : OutputWriter.drop w
            = some { writer := { w.writer with received := w.writer.received ++
                (w.buf ++ [10]) }, buf := [] } := by
          unfold OutputWriter.drop
          rw [if_neg hempty]
          simp only [s2nl_eq_other hlast h32 h10]
          rw [flush_ok (w := { w with buf := w.buf ++ [10] }) hw hf]
        rw [hstep]
        simp [hlast, h32, h10]

/-- Witness for C4: dropping a writer holding `"B "` after `"A"` was
already flushed delivers exactly `"B\n"`, so the sink ends with
`"AB\n"` and the buffer is empty. -/
theorem drop_delivers_all_witness :
    OutputWriter.drop ⟨⟨[65], false, false⟩, [66, 32]⟩
      = some ⟨⟨[65, 66, 10], false, false⟩, []⟩ := by
  have h := drop_delivers_all ⟨⟨[65], false, false⟩, [66, 32]⟩ (by decide) rfl rfl
  rw [h]
  decide

end OutputWriter

/-!
Round-trip machinery: the bytes produced by `prints`-ing every token and
collapsing the final separator, and the fact that `next_word` reads the
tokens back.
-/

theorem writeTokens_spec :
    ∀ (ts : List (List Nat)) (w : OutputWriter),
      (writeTokens ts w).buf = w.buf ++ (ts.map (fun t => t ++ [32])).flatten ∧
      (writeTokens ts w).writer = w.writer := by
  intro ts
  induction ts with
  | nil => intro w; simp [writeTokens]
  | cons t ts' ih =>
    intro w
    have hstep : writeTokens (t :: ts') w = writeTokens ts' (OutputWriter.prints t w) := rfl
    rw [hstep]
    obtain ⟨h1, h2⟩ := ih (OutputWriter.prints t w)
    constructor
    · rw [h1]
      show (w.buf ++ (t ++ [32])) ++ _ = _
      rw [List.map_cons, List.flatten_cons, List.append_assoc]
    · rw [h2]
      rfl

theorem blob_getLast_dropLast :
    ∀ ts : List (List Nat), ts ≠ [] →
      ((ts.map (fun t => t ++ [32])).flatten).getLast? = some 32 ∧
      ((ts.map (fun t => t ++ [32])).flatten).dropLast ++ [10] = blobNL ts := by
  intro ts
  induction ts with
  | nil => intro h; exact absurd rfl h
  | cons t ts' ih =>
    intro _
    rcases hts' : ts' with _ | ⟨t2, ts''⟩
    · subst hts'
      constructor
      · simp [List.getLast?_concat]
      · simp [blobNL, List.dropLast_concat]
    · subst hts'
      obtain ⟨ih1, ih2⟩ := ih (List.cons_ne_nil _ _)
      have hfne : (((t2 :: ts'').map (fun t => t ++ [32])).flatten) ≠ [] := by
        intro hnil
        rw [hnil] at ih1
        exact absurd ih1 (by simp)
      constructor
      · rw [List.map_cons, List.flatten_cons, List.getLast?_append_of_ne_nil _ hfne]
        exact ih1
      · rw [List.map_cons, List.flatten_cons, List.dropLast_append_of_ne_nil _ hfne,
          List.append_assoc, ih2]
        show _ = t ++ 32 :: blobNL (t2 :: ts'')
        rw [List.append_assoc]
        rfl

theorem takeWhile_append_of_all {p : Nat → Bool} :
    ∀ {t : List Nat} (l : List Nat), (∀ c ∈ t, p c = true) →
      (t ++ l).takeWhile p = t ++ l.takeWhile p := by
  intro t
  induction t with
  | nil => intro l _; rfl
  | cons c t' ih =>
    intro l h
    have hc : p c = true := h c (List.mem_cons_self _ _)
    rw [List.cons_append]
    simp only [List.takeWhile_cons, hc, if_true]
    rw [ih l (fun d hd => h d (List.mem_cons_of_mem _ hd)), List.cons_append]

theorem dropWhile_append_of_all {p : Nat → Bool} :
    ∀ {t : List Nat} (l : List Nat), (∀ c ∈ t, p c = true) →
      (t ++ l).dropWhile p = l.dropWhile p := by
  intro t
  induction t with
  | nil => intro l _; rfl
  | cons c t' ih =>
    intro l h
    have hc : p c = true := h c (List.mem_cons_self _ _)
    rw [List.cons_append]
    simp only [List.dropWhile_cons, hc, if_true]
    exact ih l (fun d hd => h d (List.mem_cons_of_mem _ hd))

theorem consume_untilL_append_of_none {test : Nat → Bool} :
    ∀ {pre : List Nat} (l : List Nat), (∀ c ∈ pre, test c = false) →
      consume_untilL test (pre ++ l) = consume_untilL test l := by
  intro pre
  induction pre with
  | nil => intro l _; rfl
  | cons c pre' ih =>
    intro l h
    have hc : test c = false := h c (List.mem_cons_self _ _)
    rw [List.cons_append]
    simp only [consume_untilL, hc, Bool.false_eq_true, if_false]
    exact ih l (fun d hd => h d (List.mem_cons_of_mem _ hd))

theorem next_word_goL_spec :
    ∀ (l acc : List Nat), l ≠ [] →
      next_word_goL acc l
        = some (acc ++ l.takeWhile isAsciiGraphic, l.dropWhile isAsciiGraphic) := by
  intro l
  induction l with
  | nil => intro acc h; exact absurd rfl h
  | cons c rest ih =>
    intro acc _
    rcases ht : isAsciiGraphic c with _ | _
    · simp [next_word_goL, ht, List.takeWhile_cons, List.dropWhile_cons]
    · have htw : List.takeWhile isAsciiGraphic (c :: rest)
          = c :: List.takeWhile isAsciiGraphic rest := by
        simp [List.takeWhile_cons, ht]
      have hdw : List.dropWhile isAsciiGraphic (c :: rest)
          = List.dropWhile isAsciiGraphic rest := by
        simp [List.dropWhile_cons, ht]
      rcases hrest : rest with _ | ⟨d, ds⟩
      · subst hrest
        simp [next_word_goL, ht, List.takeWhile_cons, List.dropWhile_cons]
      · have hrestne : rest ≠ [] := by rw [hrest]; exact List.cons_ne_nil d ds
        have hstep : next_word_goL acc (c :: rest) = next_word_goL (acc ++ [c]) rest := by
          rw [hrest]
          simp only [next_word_goL, ht, if_true]
        rw [← hrest, hstep, ih (acc ++ [c]) hrestne, htw, hdw]
        simp

theorem next_wordL_token (e : Bool) (pre t : List Nat) (b : Nat) (bs : List Nat)
    (hpre : ∀ c ∈ pre, isAsciiGraphic c = false)
    (hpree : e = true → pre = [])
    (htne : t ≠ []) (ht : ∀ c ∈ t, isAsciiGraphic c = true)
    (hb : isAsciiGraphic b = false) :
    next_wordL e (pre ++ (t ++ b :: bs)) = some (t, eager_skipL e (b :: bs)) := by
  have hne2 : t ++ b :: bs ≠ [] := by simp
  have hgoL : next_word_goL [] (t ++ b :: bs) = some (t, b :: bs) := by
    rw [next_word_goL_spec _ _ hne2, takeWhile_append_of_all _ ht, dropWhile_append_of_all _ ht]
    simp [List.takeWhile_cons, List.dropWhile_cons, hb]
  rcases e with _ | _
  · have hskip : consume_untilL isAsciiGraphic (pre ++ (t ++ b :: bs))
        = some (t ++ b :: bs) := by
      rw [consume_untilL_append_of_none _ hpre]
      rcases t with _ | ⟨c, t'⟩
      · exact absurd rfl htne
      · have hc : isAsciiGraphic c = true := ht c (List.mem_cons_self _ _)
        rw [List.cons_append]
        simp [consume_untilL, hc]
    unfold next_wordL
    simp only [Bool.false_eq_true, if_false, hskip, hgoL]
  · have hpre0 : pre = [] := hpree rfl
    subst hpre0
    unfold next_wordL
    simp only [if_true, List.nil_append, hgoL]

theorem blobNL_cons (t : List Nat) (ts : List (List Nat)) :
    blobNL (t :: ts) = t ++ (if ts = [] then [10] else 32 :: blobNL ts) := by
  rcases ts with _ | ⟨t2, ts'⟩
  · simp [blobNL]
  · simp [blobNL]

theorem blobNL_ne_nil (ts : List (List Nat)) : blobNL ts ≠ [] := by
  rcases ts with _ | ⟨t, ts'⟩
  · simp [blobNL]
  · rw [blobNL_cons]
    rcases ts' with _ | _ <;> simp

theorem dropNonGraphic_blobNL (ts : List (List Nat)) (hne : ts ≠ [])
    (htok : ∀ t ∈ ts, t ≠ [] ∧ ∀ c ∈ t, isAsciiGraphic c = true) :
    dropNonGraphic (blobNL ts) = blobNL ts := by
  rcases ts with _ | ⟨t, ts'⟩
  · exact absurd rfl hne
  · obtain ⟨htne, ht⟩ := htok t (List.mem_cons_self _ _)
    rcases t with _ | ⟨c, t'⟩
    · exact absurd rfl htne
    · have hc : isAsciiGraphic c = true := ht c (List.mem_cons_self _ _)
      rw [blobNL_cons, List.cons_append]
      simp [dropNonGraphic, List.dropWhile_cons, hc]

theorem run_next_wordsL_succ (e : Bool) (k : Nat) (l w l' : List Nat)
    (h : next_wordL e l = some (w, l')) :
    run_next_wordsL e (k + 1) l
      = (w :: (run_next_wordsL e k l').1, (run_next_wordsL e k l').2) := by
  simp only [run_next_wordsL, h]

theorem run_next_wordsL_blobNL :
    ∀ (ts : List (List Nat)), (∀ t ∈ ts, t ≠ [] ∧ ∀ c ∈ t, isAsciiGraphic c = true) →
      ts ≠ [] →
      ∀ (e : Bool) (pre : List Nat), (∀ c ∈ pre, isAsciiGraphic c = false) →
        (e = true → pre = []) →
        run_next_wordsL e ts.length (pre ++ blobNL ts) = (ts, true) := by
  intro ts
  induction ts with
  | nil => intro _ h; exact absurd rfl h
  | cons t ts' ih =>
    intro htok _ e pre hpre hpree
    obtain ⟨htne, ht⟩ := htok t (List.mem_cons_self _ _)
    rcases hts' : ts' with _ | ⟨t2, ts''⟩
    · subst hts'
      have hword : next_wordL e (pre ++ (t ++ 10 :: []))
          = some (t, eager_skipL e [10]) :=
        next_wordL_token e pre t 10 [] hpre hpree htne ht (by decide)
      have hblob : blobNL [t] = t ++ 10 :: [] := rfl
      rw [hblob]
      simp only [List.length_cons, List.length_nil]
      simp only [run_next_wordsL, hword]
    · subst hts'
      have hblob : blobNL (t :: t2 :: ts'') = t ++ 32 :: blobNL (t2 :: ts'') := rfl
      have hword := next_wordL_token e pre t 32 (blobNL (t2 :: ts'')) hpre hpree htne ht
        (by decide)
      have htok' : ∀ u ∈ t2 :: ts'', u ≠ [] ∧ ∀ c ∈ u, isAsciiGraphic c = true :=
        fun u hu => htok u (List.mem_cons_of_mem _ hu)
      have hskip : eager_skipL e (32 :: blobNL (t2 :: ts''))
          = (if e then ([] : List Nat) else [32]) ++ blobNL (t2 :: ts'') := by
        rcases e with _ | _
        · rfl
        · show dropNonGraphic (32 :: blobNL (t2 :: ts'')) = [] ++ blobNL (t2 :: ts'')
          rw [List.nil_append]
          have hg32 : isAsciiGraphic 32 = false := by decide
          have h32 : dropNonGraphic (32 :: blobNL (t2 :: ts''))
              = dropNonGraphic (blobNL (t2 :: ts'')) := by
            simp [dropNonGraphic, List.dropWhile_cons, hg32]
          rw [h32, dropNonGraphic_blobNL (t2 :: ts'') (List.cons_ne_nil _ _) htok']
      have hpre' : ∀ c ∈ (if e then ([] : List Nat) else [32]), isAsciiGraphic c = false := by
        rcases e with _ | _ <;> decide
      have hrec := ih htok' (List.cons_ne_nil _ _) e (if e then ([] : List Nat) else [32])
        hpre' (fun he => by rw [he]; rfl)
      rw [hblob]
      show run_next_wordsL e ((t2 :: ts'').length + 1)
          (pre ++ (t ++ 32 :: blobNL (t2 :: ts''))) = _
      rw [run_next_wordsL_succ e (t2 :: ts'').length _ t _ hword, hskip, hrec]

/-- C6: round trip.  Writing each of `N` nonempty all-graphic token
byte-strings with `prints`, then `s2nl`, leaves exactly the tokens
separated by single spaces with a final newline in the buffer; `flush`
on an accepting sink delivers those bytes; and `N` `next_word` calls on
a reader over the sink's contents reproduce the `N` tokens in order, in
either whitespace mode. -/
theorem prints_s2nl_flush_round_trip (ts : List (List Nat)) (e : Bool) (hne : ts ≠ [])
    (htok : ∀ t ∈ ts, t ≠ [] ∧ ∀ c ∈ t, isAsciiGraphic c = true) :
    OutputWriter.s2nl (writeTokens ts (OutputWriter.from_writer ⟨[], false, false⟩))
      = some ⟨⟨[], false, false⟩, blobNL ts⟩ ∧
    OutputWriter.flush ⟨⟨[], false, false⟩, blobNL ts⟩
      = (Except.ok (), ⟨⟨blobNL ts, false, false⟩, []⟩) ∧
    InputReader.run_next_words ts.length (InputReader.from_reader [blobNL ts] e)
      = (ts, true) := by
  obtain ⟨hbuf, hwriter⟩ := writeTokens_spec ts (OutputWriter.from_writer ⟨[], false, false⟩)
  rw [show (OutputWriter.from_writer ⟨[], false, false⟩).buf = [] from rfl,
    List.nil_append] at hbuf
  obtain ⟨hlast, hdrop⟩ := blob_getLast_dropLast ts hne
  refine ⟨?_, ?_, ?_⟩
  · have h := OutputWriter.s2nl_eq_space
      (w := writeTokens ts (OutputWriter.from_writer ⟨[], false, false⟩))
      (by rw [hbuf]; exact hlast)
    rw [h]
    have hb' : (writeTokens ts (OutputWriter.from_writer ⟨[], false, false⟩)).buf.dropLast
        ++ [10] = blobNL ts := by
      rw [hbuf]
      exact hdrop
    rw [hwriter, hb']
    rfl
  · rw [OutputWriter.flush_ok rfl rfl]
    rfl
  · have hch : ∀ c ∈ [blobNL ts], c ≠ [] := by
      intro c hc
      rw [List.mem_singleton] at hc
      rw [hc]
      exact blobNL_ne_nil ts
    obtain ⟨hWF, heag, hrem⟩ := InputReader.from_reader_spec [blobNL ts] e hch
    rw [InputReader.run_next_words_sim _ _ hWF, heag, hrem]
    have hfl : ([blobNL ts] : List (List Nat)).flatten = blobNL ts := by simp
    rw [hfl]
    have hmain := run_next_wordsL_blobNL ts htok hne e [] (by simp) (fun _ => rfl)
    rw [List.nil_append] at hmain
    rcases e with _ | _
    · simpa using hmain
    · simp only [if_true]
      rw [dropNonGraphic_blobNL ts hne htok]
      exact hmain

/-- Witness for C6: tokens `"a"` and `"bc"`; the sink content is
`"a bc\n"` and two `next_word` calls read them back. -/
theorem prints_s2nl_flush_round_trip_witness :
    OutputWriter.s2nl (writeTokens [[97], [98, 99]] (OutputWriter.from_writer ⟨[], false, false⟩))
      = some ⟨⟨[], false, false⟩, blobNL [[97], [98, 99]]⟩ ∧
    InputReader.run_next_words 2 (InputReader.from_reader [blobNL [[97], [98, 99]]] true)
      = ([[97], [98, 99]], true) := by
  have h := prints_s2nl_flush_round_trip [[97], [98, 99]] true (by decide) (by decide)
  exact ⟨h.1, h.2.2⟩

end EasyIO
